import Mathlib

/-!
Verification of the column-reconciliation logic of `xl_col_diff.py`.

The script compares an "old" and a "new" Excel workbook (openpyxl) and
mutates the old workbook so that its sheets' columns match the new
workbook's columns.  We model a worksheet by its observable rectangular
grid of cell values: `rows` is the list of rows (row 1 is the header row),
every cell is an `Option α` (`none` is an empty cell, `some a` a value).
openpyxl presents a sheet as a `max_row × max_column` grid where unset
cells read as `None`; a well-formed model sheet is therefore rectangular
(`Rect`) and, as openpyxl reports `max_column ≥ 1`, a sheet freshly read
from a file has at least one column (`WF`).

Cell values are kept generic in a type `α` with decidable equality,
mirroring Python `==` on cell values.
-/

/-- A worksheet: the rectangular grid of cell values, row 1 first. -/
structure Sheet (α : Type) where
  rows : List (List (Option α))
deriving DecidableEq, Repr

/-- Pad a row with `none` cells on the right up to length `n`
(how openpyxl presents a sparse row of a sheet whose `max_column` is `n`). -/
def padNone {α : Type} (r : List (Option α)) (n : Nat) : List (Option α) :=
  r ++ List.replicate (n - r.length) none

namespace Sheet

variable {α : Type} [DecidableEq α]

/-- Number of columns of the rectangular grid (length of the stored first row). -/
def width (s : Sheet α) : Nat := (s.rows.headD []).length

/-- The stored header row (row 1). -/
def header (s : Sheet α) : List (Option α) := s.rows.headD []

/-- openpyxl's `max_column`: at least 1 even for an empty sheet. -/
def maxColumn (s : Sheet α) : Nat := max s.width 1

/-- Reading row 1 through openpyxl (`sheet[1]`): the header row padded to
`max_column` cells.  This is what `old_headers = [cell.value for cell in old_sheet[1]]`
produces. -/
def header1 (s : Sheet α) : List (Option α) := padNone s.header s.maxColumn

/-- `sheet.cell(row=1, column=c, value=v)` (1-based `c`): widens the grid to
column `c` if needed, then sets the header cell at column `c`. -/
def setCell1 (s : Sheet α) (c : Nat) (v : Option α) : Sheet α :=
  let w := max s.width c
  match s.rows with
  | [] => ⟨[(padNone [] w).set (c - 1) v]⟩
  | r :: rs => ⟨((padNone r w).set (c - 1) v) :: rs.map (fun r => padNone r w)⟩

/-- `sheet.insert_cols(p)` (1-based `p`): cells in columns `≥ p` shift one
column right in every row; a no-op when the sheet has no cells at column `≥ p`. -/
def insertCols (s : Sheet α) (p : Nat) : Sheet α :=
  if p ≤ s.width then
    ⟨s.rows.map (fun r => r.take (p - 1) ++ none :: r.drop (p - 1))⟩
  else s

/-- Remove the cell at 1-based position `p` from a row (no-op if out of range). -/
def erase1 {β : Type} (r : List β) (p : Nat) : List β := r.take (p - 1) ++ r.drop p

/-- `sheet.delete_cols(p)` (1-based `p`): removes column `p` from every row,
cells to the right shift left; a no-op when `p` is past the last column. -/
def deleteCols (s : Sheet α) (p : Nat) : Sheet α := ⟨s.rows.map (fun r => erase1 r p)⟩

/-- The grid is rectangular and nonempty (every openpyxl sheet presents this way). -/
def Rect (s : Sheet α) : Prop := s.rows ≠ [] ∧ ∀ r ∈ s.rows, r.length = s.width

/-- Well-formed sheet as read from a file: rectangular with at least one column. -/
def WF (s : Sheet α) : Prop := s.Rect ∧ 0 < s.width

instance (s : Sheet α) : Decidable s.Rect :=
  decidable_of_iff (s.rows ≠ [] ∧ ∀ r ∈ s.rows, r.length = s.width) Iff.rfl

instance (s : Sheet α) : Decidable s.WF :=
  decidable_of_iff (s.Rect ∧ 0 < s.width) Iff.rfl

end Sheet

/-- The two `sync_type` policies of `compare_and_sync_columns`. -/
inductive SyncType
  | rightmost
  | moverows
deriving DecidableEq, Repr

/-- Python `enumerate(l, start=n)`. -/
def pyEnum {β : Type} : Nat → List β → List (Nat × β)
  | _, [] => []
  | n, a :: l => (n, a) :: pyEnum (n + 1) l

/-- Python `list.insert(i, a)`: insert before index `i`, appending when `i`
is past the end. -/
def pyInsert {β : Type} (l : List β) (i : Nat) (a : β) : List β :=
  l.take i ++ a :: l.drop i

variable {α : Type} [DecidableEq α]

/-- One iteration of the "Add missing columns to old_sheet" loop of
`compare_and_sync_columns` (lines 63-82): `ch` is the `(col_num, header)`
pair from `enumerate(new_headers, start=1)`, the state is the pair of the
old sheet and the Python list `old_headers`. -/
def addColsStep (st : SyncType) (acc : Sheet α × List (Option α))
    (ch : Nat × Option α) : Sheet α × List (Option α) :=
  if ch.2 ∈ acc.2 then acc
  else
    match st with
    | SyncType.rightmost =>
        let pos := acc.1.maxColumn + 1
        (acc.1.setCell1 pos ch.2, acc.2 ++ [ch.2])
    | SyncType.moverows =>
        let pos := ch.1
        ((acc.1.insertCols pos).setCell1 pos ch.2, pyInsert acc.2 (pos - 1) ch.2)

/-- The whole "Add missing columns" loop. -/
def addColsGo (st : SyncType) :
    List (Nat × Option α) → Sheet α × List (Option α) → Sheet α × List (Option α)
  | [], acc => acc
  | ch :: rest, acc => addColsGo st rest (addColsStep st acc ch)

/-- `cols_to_delete` (lines 86-89): 1-based positions of `old_headers`
entries absent from `new_headers`. -/
def colsToDelete (oldHeaders newHeaders : List (Option α)) : List Nat :=
  ((pyEnum 1 oldHeaders).filter (fun ch => !(decide (ch.2 ∈ newHeaders)))).map Prod.fst

/-- Insert into a descending list (used to model Python `sorted(·, reverse=True)`). -/
def insertDesc (a : Nat) : List Nat → List Nat
  | [] => [a]
  | b :: l => if b ≤ a then a :: b :: l else b :: insertDesc a l

/-- Python `sorted(l, reverse=True)` on a list of numbers. -/
def sortDesc : List Nat → List Nat
  | [] => []
  | a :: l => insertDesc a (sortDesc l)

/-- The deletion loop (lines 92-96): delete the listed columns in
descending order. -/
def deleteColsAll (s : Sheet α) (cols : List Nat) : Sheet α :=
  (sortDesc cols).foldl Sheet.deleteCols s

/-- One iteration of the "Rename columns" loop (lines 103-111): if position
`col_num` exists in the Python list `old_headers` and holds a different value
than `header`, overwrite the sheet's header cell at that column. -/
def renameStep (oldHeaders : List (Option α)) (s : Sheet α)
    (ch : Nat × Option α) : Sheet α :=
  match oldHeaders.get? (ch.1 - 1) with
  | none => s
  | some v => if v = ch.2 then s else s.setCell1 ch.1 ch.2

/-- The whole "Rename columns" loop. -/
def renameGo (oldHeaders : List (Option α)) :
    List (Nat × Option α) → Sheet α → Sheet α
  | [], s => s
  | ch :: rest, s => renameGo oldHeaders rest (renameStep oldHeaders s ch)

/-- Per-sheet body of `compare_and_sync_columns` (lines 49-111): add missing
columns, optionally delete obsolete columns (refreshing `old_headers` from
the sheet afterwards), then the positional rename pass. -/
def syncSheet (allowDelete : Bool) (st : SyncType)
    (newHeaders : List (Option α)) (s : Sheet α) : Sheet α :=
  let oldHeaders := s.header1
  let p1 := addColsGo st (pyEnum 1 newHeaders) (s, oldHeaders)
  let p2 :=
    if allowDelete then
      let s2 := deleteColsAll p1.1 (colsToDelete p1.2 newHeaders)
      (s2, s2.header1)
    else p1
  renameGo p2.2 (pyEnum 1 newHeaders) p2.1

/-- A workbook: its sheets in order, each with its name (unique in openpyxl). -/
abbrev Workbook (α : Type) := List (String × Sheet α)

/-- `wb.sheetnames`. -/
def sheetNames (wb : Workbook α) : List String := wb.map Prod.fst

/-- Replace the sheet named `n` (openpyxl names are unique). -/
def updateSheet (wb : Workbook α) (n : String) (f : Sheet α → Sheet α) : Workbook α :=
  wb.map (fun q => if q.1 = n then (q.1, f q.2) else q)

/-- Python `re.match(pattern, s)` as a Boolean: does some prefix of `s`
match the regular expression?  (`re.match` anchors at the start only.) -/
def pyReMatch (r : RegularExpression Char) (s : List Char) : Bool :=
  (List.range (s.length + 1)).any fun n => r.rmatch (s.take n)

/-- Python `re.search(pattern, s)` as a Boolean: does a match start at any
position of `s`? -/
def pyReSearch (r : RegularExpression Char) (s : List Char) : Bool :=
  (List.range (s.length + 1)).any fun i => pyReMatch r (s.drop i)

/-- A literal-text pattern such as `"Temp"` or `"2024"`, as a regular
expression (concatenation of its characters). -/
def litRe (s : String) : RegularExpression Char :=
  s.data.foldr (fun c r => RegularExpression.char c * r) 1

/-- Line 39: `ignore_sheet_regex and re.match(ignore_sheet_regex, sheet_name)`. -/
def ignoreSheetB (pat : Option (RegularExpression Char)) (name : String) : Bool :=
  match pat with
  | none => false
  | some r => pyReMatch r name.data

/-- The sheet loop of `compare_and_sync_columns` (lines 37-111): for each
sheet of the new workbook, unless its name matches the ignore pattern or it
is absent from the old workbook, reconcile the same-named old sheet. -/
def syncWorkbook (allowDelete : Bool) (st : SyncType)
    (pat : Option (RegularExpression Char)) (newWb oldWb : Workbook α) : Workbook α :=
  newWb.foldl
    (fun old q =>
      if ignoreSheetB pat q.1 then old
      else if q.1 ∈ sheetNames old then
        updateSheet old q.1 (syncSheet allowDelete st q.2.header1)
      else old)
    oldWb

/-- Outcome of `openpyxl.load_workbook` on one path: success, a missing
file (`FileNotFoundError`), or any other load failure. -/
inductive LoadResult (α : Type)
  | ok (wb : Workbook α)
  | notFound
  | failed (msg : String)

/-- `compare_and_sync_columns(old_file, new_file, allow_delete, sync_type,
ignore_sheet_regex)` (lines 14-119).  The `sync_type` check raises
(`Except.error`) before anything is loaded; every exception inside the
`try` block — in particular a failing `load_workbook` — is caught and
logged, the function returning normally (`Except.ok none`); on success the
mutated old workbook is saved (`Except.ok (some _)`). -/
def compareAndSyncColumns (oldLoad newLoad : LoadResult α) (allowDelete : Bool)
    (syncType : String) (pat : Option (RegularExpression Char)) :
    Except String (Option (Workbook α)) :=
  if syncType = "rightmost" ∨ syncType = "moverows" then
    Except.ok
      (match oldLoad, newLoad with
       | LoadResult.ok oldWb, LoadResult.ok newWb =>
           some (syncWorkbook allowDelete
             (if syncType = "rightmost" then SyncType.rightmost else SyncType.moverows)
             pat newWb oldWb)
       | _, _ => none)
  else Except.error "Invalid sync_type. Must be 'rightmost' or 'moverows'."

/-- The per-pair loop of `compare_directory_files` (lines 131-155): each
matched file pair is processed by `compare_and_sync_columns`; an uncaught
error (only the `sync_type` check) aborts the run. -/
def compareDirectoryFiles (pairs : List (LoadResult α × LoadResult α))
    (allowDelete : Bool) (syncType : String)
    (pat : Option (RegularExpression Char)) :
    Except String (List (Option (Workbook α))) :=
  pairs.mapM fun pr => compareAndSyncColumns pr.1 pr.2 allowDelete syncType pat

/-- Pointwise result of the rename pass on the header row: positions where
the tracked list and the new header disagree take the new header's value. -/
def renameResult : List (Option α) → List (Option α) → List (Option α) → List (Option α)
  | h :: hs, o :: os, n :: ns => (if o = n then h else n) :: renameResult hs os ns
  | hd, _, _ => hd

/-- The state after the "Add missing columns" loop of `syncSheet`. -/
def phase1 (st : SyncType) (newHeaders : List (Option α)) (s : Sheet α) :
    Sheet α × List (Option α) :=
  addColsGo st (pyEnum 1 newHeaders) (s, s.header1)

/-- The sheet after the deletion loop of `syncSheet` (when `allow_delete`). -/
def deletePhase (newHeaders : List (Option α)) (p : Sheet α × List (Option α)) :
    Sheet α :=
  deleteColsAll p.1 (colsToDelete p.2 newHeaders)

/-- Effect of one run of the sheet loop on a single old sheet entry: if a
same-named sheet exists in the new workbook and the name is not ignored, it
is reconciled, otherwise left alone. -/
def applySheet (ad : Bool) (st : SyncType) (pat : Option (RegularExpression Char))
    (nw : Workbook α) (q : String × Sheet α) : String × Sheet α :=
  match nw.find? (fun r => decide (r.1 = q.1)) with
  | some r =>
      if ignoreSheetB pat q.1 then q else (q.1, syncSheet ad st r.2.header1 q.2)
  | none => q
/-! ### Basic facts about `padNone` and the sheet operations -/

set_option linter.unusedSectionVars false

theorem padNone_length {α : Type} (r : List (Option α)) (n : Nat) :
    (padNone r n).length = max r.length n := by
  simp [padNone]
  omega

theorem padNone_of_le {α : Type} (r : List (Option α)) {n : Nat} (h : n ≤ r.length) :
    padNone r n = r := by
  simp [padNone, Nat.sub_eq_zero_of_le h]

theorem padNone_getElem?_left {α : Type} (r : List (Option α)) {n i : Nat}
    (h : i < r.length) : (padNone r n)[i]? = r[i]? := by
  unfold padNone
  rw [List.getElem?_append_left h]

theorem padNone_getElem?_pad {α : Type} (r : List (Option α)) {n i : Nat}
    (h1 : r.length ≤ i) (h2 : i < n) : (padNone r n)[i]? = some none := by
  unfold padNone
  rw [List.getElem?_append_right h1, List.getElem?_replicate, if_pos (by omega)]

namespace Sheet

variable {α : Type} [DecidableEq α]

theorem header_length (s : Sheet α) : s.header.length = s.width := rfl

theorem header1_eq_header {s : Sheet α} (h : 0 < s.width) : s.header1 = s.header := by
  unfold header1 maxColumn
  rw [Nat.max_eq_left h]
  exact padNone_of_le _ (Nat.le_of_eq (header_length s))

theorem header1_length (s : Sheet α) : s.header1.length = s.maxColumn := by
  unfold header1
  rw [padNone_length, header_length]
  unfold maxColumn
  omega

theorem header_setCell1 {s : Sheet α} (hs : s.rows ≠ []) (c : Nat) (v : Option α) :
    (s.setCell1 c v).header = (padNone s.header (max s.width c)).set (c - 1) v := by
  obtain ⟨rows⟩ := s
  cases rows with
  | nil => exact absurd rfl hs
  | cons r rs => rfl

theorem width_setCell1 {s : Sheet α} (hs : s.rows ≠ []) (c : Nat) (v : Option α) :
    (s.setCell1 c v).width = max s.width c := by
  rw [← header_length, header_setCell1 hs, List.length_set, padNone_length,
    header_length, ← Nat.max_assoc, Nat.max_self]

theorem rows_length_setCell1 {s : Sheet α} (hs : s.rows ≠ []) (c : Nat) (v : Option α) :
    (s.setCell1 c v).rows.length = s.rows.length := by
  obtain ⟨rows⟩ := s
  cases rows with
  | nil => exact absurd rfl hs
  | cons r rs =>
    show (_ :: rs.map _).length = (r :: rs).length
    simp

theorem rows_ne_nil_setCell1 {s : Sheet α} (hs : s.rows ≠ []) (c : Nat) (v : Option α) :
    (s.setCell1 c v).rows ≠ [] := by
  obtain ⟨rows⟩ := s
  cases rows with
  | nil => exact absurd rfl hs
  | cons r rs =>
    show (_ :: rs.map _) ≠ []
    simp

theorem drop_rows_setCell1 {s : Sheet α} (hs : s.rows ≠ []) (c : Nat) (v : Option α) :
    (s.setCell1 c v).rows.drop 1 =
      (s.rows.drop 1).map (fun t => padNone t (max s.width c)) := by
  obtain ⟨rows⟩ := s
  cases rows with
  | nil => exact absurd rfl hs
  | cons r rs => rfl

theorem rect_setCell1 {s : Sheet α} (hrect : s.Rect) (c : Nat) (v : Option α) :
    (s.setCell1 c v).Rect := by
  refine ⟨rows_ne_nil_setCell1 hrect.1 c v, ?_⟩
  intro t ht
  rw [width_setCell1 hrect.1]
  have hrows : (s.setCell1 c v).rows =
      (s.setCell1 c v).header :: (s.setCell1 c v).rows.drop 1 := by
    obtain ⟨rows⟩ := s
    cases rows with
    | nil => exact absurd rfl hrect.1
    | cons r rs => rfl
  rw [hrows] at ht
  rcases List.mem_cons.mp ht with h | h
  · rw [h, header_setCell1 hrect.1, List.length_set, padNone_length, header_length,
      ← Nat.max_assoc, Nat.max_self]
  · rw [drop_rows_setCell1 hrect.1] at h
    obtain ⟨u, hu, rfl⟩ := List.mem_map.mp h
    rw [padNone_length]
    have : u.length = s.width := hrect.2 u (List.mem_of_mem_drop hu)
    omega

/-- `setCell1` at a column within the current width, on a rectangular sheet:
just set the header cell, everything else untouched. -/
theorem setCell1_of_le {s : Sheet α} (hrect : s.Rect) {c : Nat} (hc : c ≤ s.width)
    (v : Option α) :
    s.setCell1 c v = ⟨(s.header.set (c - 1) v) :: s.rows.drop 1⟩ := by
  obtain ⟨rows⟩ := s
  cases rows with
  | nil => exact absurd rfl hrect.1
  | cons r rs =>
    have hw : Sheet.width ⟨r :: rs⟩ = r.length := rfl
    rw [hw] at hc
    show Sheet.mk ((padNone r (max r.length c)).set (c - 1) v ::
      rs.map (fun t => padNone t (max r.length c))) = _
    rw [Nat.max_eq_left hc, padNone_of_le _ le_rfl]
    have hmap : rs.map (fun t => padNone t r.length) = rs := by
      have h1 : ∀ t ∈ rs, padNone t r.length = t := by
        intro t ht
        have : t.length = r.length := hrect.2 t (by simp [ht])
        exact padNone_of_le _ (le_of_eq this.symm)
      calc rs.map (fun t => padNone t r.length) = rs.map id :=
            List.map_congr_left h1
        _ = rs := List.map_id rs
    rw [hmap]
    rfl

/-- `setCell1` appending one column just past the end of a rectangular sheet. -/
theorem setCell1_append {s : Sheet α} (hrect : s.Rect) (v : Option α) :
    s.setCell1 (s.width + 1) v =
      ⟨(s.header ++ [v]) :: (s.rows.drop 1).map (fun t => t ++ [none])⟩ := by
  obtain ⟨rows⟩ := s
  cases rows with
  | nil => exact absurd rfl hrect.1
  | cons r rs =>
    have hw : Sheet.width ⟨r :: rs⟩ = r.length := rfl
    show Sheet.mk ((padNone r (max (Sheet.width ⟨r :: rs⟩) (Sheet.width ⟨r :: rs⟩ + 1))).set
        (Sheet.width ⟨r :: rs⟩ + 1 - 1) v ::
        rs.map (fun t => padNone t (max (Sheet.width ⟨r :: rs⟩) (Sheet.width ⟨r :: rs⟩ + 1)))) = _
    rw [hw, Nat.max_eq_right (by omega)]
    have hpadr : padNone r (r.length + 1) = r ++ [none] := by
      simp [padNone, List.replicate]
    have hset : (padNone r (r.length + 1)).set (r.length + 1 - 1) v = r ++ [v] := by
      rw [hpadr, List.set_append]
      simp
    rw [hset]
    have hmap : rs.map (fun t => padNone t (r.length + 1)) =
        rs.map (fun t => t ++ [none]) := by
      apply List.map_congr_left
      intro t ht
      have hlen : t.length = r.length := hrect.2 t (by simp [ht])
      simp [padNone, hlen, List.replicate]
    rw [hmap]
    rfl

theorem insertCols_of_le {s : Sheet α} {p : Nat} (hp : p ≤ s.width) :
    s.insertCols p =
      ⟨s.rows.map (fun t => t.take (p - 1) ++ none :: t.drop (p - 1))⟩ := by
  unfold insertCols
  rw [if_pos hp]

theorem insertCols_of_gt {s : Sheet α} {p : Nat} (hp : s.width < p) :
    s.insertCols p = s := by
  unfold insertCols
  rw [if_neg (by omega)]

theorem erase1_length_of_le {β : Type} {r : List β} {p : Nat} (h1 : 1 ≤ p)
    (h2 : p ≤ r.length) : (erase1 r p).length = r.length - 1 := by
  simp [erase1]
  omega

theorem erase1_of_gt {β : Type} {r : List β} {p : Nat} (h : r.length < p) :
    erase1 r p = r := by
  have h1 : r.take (p - 1) = r := List.take_of_length_le (by omega)
  have h2 : r.drop p = [] := List.drop_eq_nil_of_le (by omega)
  simp [erase1, h1, h2]

theorem erase1_length_le {β : Type} (r : List β) (p : Nat) :
    (erase1 r p).length ≤ r.length := by
  simp [erase1]
  omega

theorem erase1_length_ge {β : Type} (r : List β) (p : Nat) :
    r.length - 1 ≤ (erase1 r p).length := by
  simp [erase1]
  omega

theorem erase1_cons_succ {β : Type} (a : β) (r : List β) {p : Nat} (h : 1 ≤ p) :
    erase1 (a :: r) (p + 1) = a :: erase1 r p := by
  unfold erase1
  have h1 : p + 1 - 1 = (p - 1) + 1 := by omega
  rw [h1]
  simp

theorem erase1_cons_one {β : Type} (a : β) (r : List β) : erase1 (a :: r) 1 = r := by
  simp [erase1]

end Sheet

/-! ### Facts about `pyEnum` and `pyInsert` -/

theorem pyEnum_length {β : Type} (l : List β) : ∀ n, (pyEnum n l).length = l.length := by
  induction l with
  | nil => intro n; rfl
  | cons a t ih => intro n; simp [pyEnum, ih]

theorem pyEnum_mem_spec {β : Type} {l : List β} :
    ∀ {n : Nat} {ch : Nat × β}, ch ∈ pyEnum n l →
      n ≤ ch.1 ∧ ch.1 < n + l.length ∧ l.get? (ch.1 - n) = some ch.2 := by
  induction l with
  | nil =>
    intro n ch h
    simp [pyEnum] at h
  | cons a t ih =>
    intro n ch h
    simp only [pyEnum, List.mem_cons] at h
    rcases h with h | h
    · subst h
      simp
    · obtain ⟨h1, h2, h3⟩ := ih h
      refine ⟨by omega, by simp; omega, ?_⟩
      have he : ch.1 - n = (ch.1 - (n + 1)) + 1 := by omega
      rw [he]
      simpa using h3

theorem pyEnum_mem_of_get? {β : Type} {l : List β} :
    ∀ {i n : Nat} {b : β}, l.get? i = some b → (n + i, b) ∈ pyEnum n l := by
  induction l with
  | nil =>
    intro i n b h
    simp at h
  | cons a t ih =>
    intro i n b h
    cases i with
    | zero =>
      simp at h
      subst h
      simp [pyEnum]
    | succ j =>
      simp only [List.get?_cons_succ] at h
      simp only [pyEnum, List.mem_cons]
      right
      have hn : n + (j + 1) = n + 1 + j := by omega
      have he : (n + (j + 1), b) = (n + 1 + j, b) := by rw [hn]
      rw [he]
      exact ih h

theorem pyInsert_length {β : Type} (l : List β) (i : Nat) (a : β) :
    (pyInsert l i a).length = l.length + 1 := by
  simp [pyInsert]
  omega

theorem pyInsert_mem_self {β : Type} (l : List β) (i : Nat) (a : β) :
    a ∈ pyInsert l i a := by
  simp [pyInsert]

theorem pyInsert_mem_of_mem {β : Type} {l : List β} {b : β} (i : Nat) (a : β)
    (h : b ∈ l) : b ∈ pyInsert l i a := by
  simp only [pyInsert, List.mem_append, List.mem_cons]
  rw [← List.take_append_drop i l] at h
  rcases List.mem_append.mp h with h | h
  · exact Or.inl h
  · exact Or.inr (Or.inr h)

theorem pyInsert_append {β : Type} (l : List β) {i : Nat} (h : l.length ≤ i) (a : β) :
    pyInsert l i a = l ++ [a] := by
  simp [pyInsert, List.take_of_length_le h, List.drop_eq_nil_of_le h]

/-! ### The "Add missing columns" phase -/

/-- The `moverows` insertion (insert_cols then set the header cell) at a
position at most one past the current width: the header gets the new name
inserted at position `c`, every data row gets a blank cell inserted there. -/
theorem moverows_insert_char {α : Type} [DecidableEq α] {s : Sheet α}
    (hrect : s.Rect) {c : Nat} (hc1 : 1 ≤ c) (hc : c ≤ s.width + 1) (v : Option α) :
    (s.insertCols c).setCell1 c v =
      ⟨(pyInsert s.header (c - 1) v) ::
        (s.rows.drop 1).map (fun t => t.take (c - 1) ++ none :: t.drop (c - 1))⟩ := by
  rcases Nat.lt_or_ge s.width c with hgt | hle
  · -- c = width + 1 : insert_cols is a no-op, the cell write appends a column
    have hceq : c = s.width + 1 := by omega
    rw [Sheet.insertCols_of_gt hgt, hceq, Sheet.setCell1_append hrect]
    rw [Nat.add_sub_cancel]
    congr 1
    congr 1
    · rw [pyInsert_append s.header (Sheet.header_length s).le]
    · apply List.map_congr_left
      intro t ht
      have hlen : t.length = s.width := hrect.2 t (List.mem_of_mem_drop ht)
      rw [List.take_of_length_le (by omega), List.drop_eq_nil_of_le (by omega)]
  · -- c ≤ width : every row gets a cell inserted, then the header cell is set
    rw [Sheet.insertCols_of_le hle]
    set f : List (Option α) → List (Option α) :=
      fun t => t.take (c - 1) ++ none :: t.drop (c - 1) with hf
    have hrows : s.rows = s.header :: s.rows.drop 1 := by
      obtain ⟨rows⟩ := s
      cases rows with
      | nil => exact absurd rfl hrect.1
      | cons r rs => rfl
    have hmap : (Sheet.mk (s.rows.map f)).rows = f s.header :: (s.rows.drop 1).map f := by
      show s.rows.map f = _
      rw [hrows]
      rfl
    have hwidth1 : (Sheet.mk (s.rows.map f)).width = s.width + 1 := by
      rw [← Sheet.header_length]
      have hh : (Sheet.mk (s.rows.map f)).header = f s.header := by
        unfold Sheet.header
        rw [hmap]
        rfl
      rw [hh, hf]
      simp only [List.length_append, List.length_cons, List.length_take,
        List.length_drop, Sheet.header_length]
      omega
    have hrect1 : (Sheet.mk (s.rows.map f)).Rect := by
      constructor
      · rw [hmap]
        simp
      · intro t ht
        rw [hwidth1]
        rw [hmap] at ht
        rcases List.mem_cons.mp ht with h | h
        · rw [h, hf]
          simp only [List.length_append, List.length_cons, List.length_take,
            List.length_drop, Sheet.header_length]
          omega
        · obtain ⟨u, hu, rfl⟩ := List.mem_map.mp h
          have hlen : u.length = s.width := hrect.2 u (List.mem_of_mem_drop hu)
          rw [hf]
          simp only [List.length_append, List.length_cons, List.length_take,
            List.length_drop, hlen]
          omega
    have hcle : c ≤ (Sheet.mk (s.rows.map f)).width := by omega
    rw [Sheet.setCell1_of_le hrect1 hcle v]
    have hh : (Sheet.mk (s.rows.map f)).header = f s.header := by
      unfold Sheet.header
      rw [hmap]
      rfl
    have hset : (f s.header).set (c - 1) v = pyInsert s.header (c - 1) v := by
      rw [hf]
      have hlt : c - 1 < (s.header.take (c - 1)).length + 1 := by
        simp only [List.length_take, Sheet.header_length]
        omega
      have hlen : (s.header.take (c - 1)).length = c - 1 := by
        simp only [List.length_take, Sheet.header_length]
        omega
      rw [List.set_append, if_neg (by omega), hlen, Nat.sub_self]
      rfl
    have hdrop : (Sheet.mk (s.rows.map f)).rows.drop 1 = (s.rows.drop 1).map f := by
      rw [hmap]
      rfl
    rw [hh, hset, hdrop]

theorem moverows_insert_header {α : Type} [DecidableEq α] {s : Sheet α}
    (hrect : s.Rect) {c : Nat} (hc1 : 1 ≤ c) (hc : c ≤ s.width + 1) (v : Option α) :
    ((s.insertCols c).setCell1 c v).header = pyInsert s.header (c - 1) v := by
  rw [moverows_insert_char hrect hc1 hc v]
  rfl

theorem moverows_insert_width {α : Type} [DecidableEq α] {s : Sheet α}
    (hrect : s.Rect) {c : Nat} (hc1 : 1 ≤ c) (hc : c ≤ s.width + 1) (v : Option α) :
    ((s.insertCols c).setCell1 c v).width = s.width + 1 := by
  rw [← Sheet.header_length, moverows_insert_header hrect hc1 hc v, pyInsert_length,
    Sheet.header_length]

theorem moverows_insert_rect {α : Type} [DecidableEq α] {s : Sheet α}
    (hrect : s.Rect) {c : Nat} (hc1 : 1 ≤ c) (hc : c ≤ s.width + 1) (v : Option α) :
    ((s.insertCols c).setCell1 c v).Rect := by
  rw [moverows_insert_char hrect hc1 hc v]
  constructor
  · simp
  · intro t ht
    have hw : (Sheet.mk ((pyInsert s.header (c - 1) v) ::
        (s.rows.drop 1).map (fun t => t.take (c - 1) ++ none :: t.drop (c - 1)))).width =
        s.width + 1 := by
      rw [← Sheet.header_length]
      show (pyInsert s.header (c - 1) v).length = s.width + 1
      rw [pyInsert_length, Sheet.header_length]
    rw [hw]
    rcases List.mem_cons.mp ht with h | h
    · rw [h, pyInsert_length, Sheet.header_length]
    · obtain ⟨u, hu, rfl⟩ := List.mem_map.mp h
      have hlen : u.length = s.width := hrect.2 u (List.mem_of_mem_drop hu)
      simp only [List.length_append, List.length_cons, List.length_take,
        List.length_drop, hlen]
      omega

theorem moverows_insert_rows_length {α : Type} [DecidableEq α] {s : Sheet α}
    (hrect : s.Rect) {c : Nat} (hc1 : 1 ≤ c) (hc : c ≤ s.width + 1) (v : Option α) :
    ((s.insertCols c).setCell1 c v).rows.length = s.rows.length := by
  rw [moverows_insert_char hrect hc1 hc v]
  show ((pyInsert s.header (c - 1) v) :: _).length = _
  have hrows : s.rows = s.header :: s.rows.drop 1 := by
    obtain ⟨rows⟩ := s
    cases rows with
    | nil => exact absurd rfl hrect.1
    | cons r rs => rfl
  conv_rhs => rw [hrows]
  simp

/-- If every enumerated header is already present in the tracked list, the
"Add missing columns" loop changes nothing. -/
theorem addColsGo_all_mem {α : Type} [DecidableEq α] (st : SyncType) :
    ∀ (pairs : List (Nat × Option α)) (acc : Sheet α × List (Option α)),
      (∀ ch ∈ pairs, ch.2 ∈ acc.2) → addColsGo st pairs acc = acc := by
  intro pairs
  induction pairs with
  | nil => intro acc _; rfl
  | cons ch rest ih =>
    intro acc hmem
    show addColsGo st rest (addColsStep st acc ch) = acc
    have hstep : addColsStep st acc ch = acc := by
      unfold addColsStep
      rw [if_pos (hmem ch (by simp))]
    rw [hstep]
    exact ih acc (fun c hc => hmem c (by simp [hc]))

theorem addColsGo_cons {α : Type} [DecidableEq α] (st : SyncType)
    (ch : Nat × Option α) (rest : List (Nat × Option α))
    (acc : Sheet α × List (Option α)) :
    addColsGo st (ch :: rest) acc = addColsGo st rest (addColsStep st acc ch) := rfl

/-- Invariant of the "Add missing columns" loop for `sync_type = "rightmost"`:
the tracked Python list `old_headers` stays equal to the sheet's header row,
the sheet stays rectangular, the width never shrinks, and every processed
header ends up in the list. -/
theorem addColsGo_rightmost_inv {α : Type} [DecidableEq α] :
    ∀ (pairs : List (Nat × Option α)) (s : Sheet α) (oh : List (Option α)),
      s.Rect → 0 < s.width → oh = s.header →
      (addColsGo SyncType.rightmost pairs (s, oh)).1.Rect ∧
      0 < (addColsGo SyncType.rightmost pairs (s, oh)).1.width ∧
      (addColsGo SyncType.rightmost pairs (s, oh)).2 =
        (addColsGo SyncType.rightmost pairs (s, oh)).1.header ∧
      s.width ≤ (addColsGo SyncType.rightmost pairs (s, oh)).1.width ∧
      (addColsGo SyncType.rightmost pairs (s, oh)).1.rows.length = s.rows.length ∧
      (∀ v ∈ oh, v ∈ (addColsGo SyncType.rightmost pairs (s, oh)).2) ∧
      (∀ ch ∈ pairs, ch.2 ∈ (addColsGo SyncType.rightmost pairs (s, oh)).2) := by
  intro pairs
  induction pairs with
  | nil =>
    intro s oh hrect hw hsync
    refine ⟨hrect, hw, hsync, le_rfl, rfl, fun v hv => hv, fun ch hch => absurd hch (by simp)⟩
  | cons ch rest ih =>
    intro s oh hrect hw hsync
    by_cases hmem : ch.2 ∈ oh
    · have hstep : addColsStep SyncType.rightmost (s, oh) ch = (s, oh) := by
        unfold addColsStep
        rw [if_pos hmem]
      rw [addColsGo_cons, hstep]
      obtain ⟨h1, h2, h3, h4, h5, h6, h7⟩ := ih s oh hrect hw hsync
      exact ⟨h1, h2, h3, h4, h5, h6, fun c hc => by
        rcases List.mem_cons.mp hc with h | h
        · rw [h]
          exact h6 ch.2 hmem
        · exact h7 c h⟩
    · have hmx : s.maxColumn = s.width := Nat.max_eq_left hw
      have hstep : addColsStep SyncType.rightmost (s, oh) ch =
          (s.setCell1 (s.width + 1) ch.2, oh ++ [ch.2]) := by
        unfold addColsStep
        rw [if_neg hmem]
        show (s.setCell1 (s.maxColumn + 1) ch.2, oh ++ [ch.2]) = _
        rw [hmx]
      rw [addColsGo_cons, hstep]
      set s2 := s.setCell1 (s.width + 1) ch.2 with hs2
      have hchar := Sheet.setCell1_append hrect ch.2
      have hrect2 : s2.Rect := Sheet.rect_setCell1 hrect _ _
      have hw2 : s2.width = s.width + 1 := by
        rw [hs2, Sheet.width_setCell1 hrect.1, Nat.max_eq_right (by omega)]
      have hh2 : s2.header = s.header ++ [ch.2] := by
        rw [hs2, hchar]
        rfl
      have hsync2 : oh ++ [ch.2] = s2.header := by
        rw [hh2, hsync]
      obtain ⟨h1, h2, h3, h4, h5, h6, h7⟩ :=
        ih s2 (oh ++ [ch.2]) hrect2 (by omega) hsync2
      refine ⟨h1, h2, h3, by omega, ?_, ?_, ?_⟩
      · rw [h5, hs2, Sheet.rows_length_setCell1 hrect.1]
      · intro v hv
        exact h6 v (by simp [hv])
      · intro c hc
        rcases List.mem_cons.mp hc with h | h
        · rw [h]
          exact h6 ch.2 (by simp)
        · exact h7 c h

/-- Invariant of the "Add missing columns" loop for `sync_type = "moverows"`
when the new header row contains no duplicate values: the tracked list stays
equal to the sheet's header row (a duplicate-free new header never forces an
insertion position beyond one past the current width). -/
theorem addColsGo_moverows_sync {α : Type} [DecidableEq α] :
    ∀ (rest : List (Option α)) (k : Nat) (s : Sheet α) (oh : List (Option α))
      (new : List (Option α)),
      new.Nodup → new.drop k = rest →
      (∀ i, i < k → ∀ v, new.get? i = some v → v ∈ oh) →
      s.Rect → 0 < s.width → oh = s.header →
      (addColsGo SyncType.moverows (pyEnum (k + 1) rest) (s, oh)).1.Rect ∧
      0 < (addColsGo SyncType.moverows (pyEnum (k + 1) rest) (s, oh)).1.width ∧
      (addColsGo SyncType.moverows (pyEnum (k + 1) rest) (s, oh)).2 =
        (addColsGo SyncType.moverows (pyEnum (k + 1) rest) (s, oh)).1.header ∧
      s.width ≤ (addColsGo SyncType.moverows (pyEnum (k + 1) rest) (s, oh)).1.width ∧
      (addColsGo SyncType.moverows (pyEnum (k + 1) rest) (s, oh)).1.rows.length =
        s.rows.length ∧
      (∀ v ∈ oh, v ∈ (addColsGo SyncType.moverows (pyEnum (k + 1) rest) (s, oh)).2) ∧
      (∀ v ∈ rest, v ∈ (addColsGo SyncType.moverows (pyEnum (k + 1) rest) (s, oh)).2) := by
  intro rest
  induction rest with
  | nil =>
    intro k s oh new hnd hdrop hproc hrect hw hsync
    refine ⟨hrect, hw, hsync, le_rfl, rfl, fun v hv => hv, fun v hv => absurd hv (by simp)⟩
  | cons h rest' ih =>
    intro k s oh new hnd hdrop hproc hrect hw hsync
    have hgetk : new.get? k = some h := by
      have := List.get?_drop new k 0
      rw [hdrop] at this
      simpa using this.symm
    have hdrop' : new.drop (k + 1) = rest' := by
      have h1 : new.drop (k + 1) = (new.drop k).drop 1 := by
        rw [List.drop_drop]
      rw [h1, hdrop]
      rfl
    have hunf : pyEnum (k + 1) (h :: rest') = (k + 1, h) :: pyEnum (k + 1 + 1) rest' := rfl
    rw [hunf]
    by_cases hmem : h ∈ oh
    · have hstep : addColsStep SyncType.moverows (s, oh) (k + 1, h) = (s, oh) := by
        unfold addColsStep
        rw [if_pos hmem]
      rw [addColsGo_cons, hstep]
      have hproc' : ∀ i, i < k + 1 → ∀ v, new.get? i = some v → v ∈ oh := by
        intro i hi v hv
        rcases Nat.lt_or_ge i k with h1 | h1
        · exact hproc i h1 v hv
        · have hik : i = k := by omega
          rw [hik, hgetk] at hv
          injection hv with hv
          rw [← hv]
          exact hmem
      obtain ⟨h1, h2, h3, h4, h5, h6, h7⟩ := ih (k + 1) s oh new hnd hdrop' hproc' hrect hw hsync
      exact ⟨h1, h2, h3, h4, h5, h6, fun v hv => by
        rcases List.mem_cons.mp hv with hv | hv
        · rw [hv]
          exact h6 h hmem
        · exact h7 v hv⟩
    · -- an insertion: its position is at most one past the width
      have hkw : k ≤ s.width := by
        have htkn : (new.take k).Nodup := hnd.sublist (List.take_sublist _ _)
        have hsub : new.take k ⊆ oh := by
          intro v hv
          obtain ⟨i, hi, hg⟩ : ∃ i, i < k ∧ new.get? i = some v := by
            obtain ⟨n, hn⟩ := List.mem_iff_get?.mp hv
            have hlt : n < k := by
              by_contra hge
              rw [List.get?_eq_none.mpr (by simp; omega)] at hn
              exact Option.noConfusion hn
            rw [List.get?_take hlt] at hn
            exact ⟨n, hlt, hn⟩
          exact hproc i hi v hg
        have hlen : (new.take k).length = k := by
          have hklen : k < new.length := by
            by_contra hge
            have : new.drop k = [] := List.drop_eq_nil_of_le (by omega)
            rw [hdrop] at this
            exact List.noConfusion this
          simp
          omega
        have := (List.subperm_of_subset htkn hsub).length_le
        rw [hlen] at this
        rw [hsync, Sheet.header_length] at this
        exact this
      have hstep : addColsStep SyncType.moverows (s, oh) (k + 1, h) =
          ((s.insertCols (k + 1)).setCell1 (k + 1) h, pyInsert oh k h) := by
        unfold addColsStep
        rw [if_neg hmem]
        rfl
      rw [addColsGo_cons, hstep]
      set s2 := (s.insertCols (k + 1)).setCell1 (k + 1) h with hs2
      have hc : k + 1 ≤ s.width + 1 := by omega
      have hrect2 : s2.Rect := moverows_insert_rect hrect (by omega) hc h
      have hw2 : s2.width = s.width + 1 := moverows_insert_width hrect (by omega) hc h
      have hh2 : s2.header = pyInsert s.header k h := by
        have := moverows_insert_header hrect (by omega) hc h
        simpa using this
      have hsync2 : pyInsert oh k h = s2.header := by
        rw [hh2, hsync]
      have hproc' : ∀ i, i < k + 1 → ∀ v, new.get? i = some v → v ∈ pyInsert oh k h := by
        intro i hi v hv
        rcases Nat.lt_or_ge i k with h1 | h1
        · exact pyInsert_mem_of_mem k h (hproc i h1 v hv)
        · have hik : i = k := by omega
          rw [hik, hgetk] at hv
          injection hv with hv
          rw [← hv]
          exact pyInsert_mem_self oh k h
      obtain ⟨h1, h2, h3, h4, h5, h6, h7⟩ :=
        ih (k + 1) s2 (pyInsert oh k h) new hnd hdrop' hproc' hrect2 (by omega) hsync2
      refine ⟨h1, h2, h3, by omega, ?_, ?_, ?_⟩
      · rw [h5, hs2, moverows_insert_rows_length hrect (by omega) hc h]
      · intro v hv
        exact h6 v (pyInsert_mem_of_mem k h hv)
      · intro v hv
        rcases List.mem_cons.mp hv with hv | hv
        · rw [hv]
          exact h6 h (pyInsert_mem_self oh k h)
        · exact h7 v hv

/-- Invariant of the "Add missing columns" loop for `sync_type = "moverows"`
with no duplicate-freeness assumption: either the tracked list stays equal to
the sheet's header row, or a "gap" insertion happened, in which case the
sheet's width is bounded by the number of enumerated columns.  The tracked
list is never longer than the sheet's width. -/
theorem addColsGo_moverows_gen {α : Type} [DecidableEq α] :
    ∀ (rest : List (Option α)) (k : Nat) (s : Sheet α) (oh : List (Option α)),
      s.Rect → 0 < s.width → oh.length ≤ s.width →
      (oh = s.header ∨ s.width ≤ k) →
      (addColsGo SyncType.moverows (pyEnum (k + 1) rest) (s, oh)).1.Rect ∧
      0 < (addColsGo SyncType.moverows (pyEnum (k + 1) rest) (s, oh)).1.width ∧
      (addColsGo SyncType.moverows (pyEnum (k + 1) rest) (s, oh)).2.length ≤
        (addColsGo SyncType.moverows (pyEnum (k + 1) rest) (s, oh)).1.width ∧
      ((addColsGo SyncType.moverows (pyEnum (k + 1) rest) (s, oh)).2 =
          (addColsGo SyncType.moverows (pyEnum (k + 1) rest) (s, oh)).1.header ∨
        (addColsGo SyncType.moverows (pyEnum (k + 1) rest) (s, oh)).1.width ≤
          k + rest.length) ∧
      s.width ≤ (addColsGo SyncType.moverows (pyEnum (k + 1) rest) (s, oh)).1.width ∧
      (addColsGo SyncType.moverows (pyEnum (k + 1) rest) (s, oh)).1.rows.length =
        s.rows.length ∧
      (∀ v ∈ oh, v ∈ (addColsGo SyncType.moverows (pyEnum (k + 1) rest) (s, oh)).2) ∧
      (∀ v ∈ rest, v ∈ (addColsGo SyncType.moverows (pyEnum (k + 1) rest) (s, oh)).2) := by
  intro rest
  induction rest with
  | nil =>
    intro k s oh hrect hw hohlen hdisj
    refine ⟨hrect, hw, hohlen, ?_, le_rfl, rfl, fun v hv => hv,
      fun v hv => absurd hv (by simp)⟩
    rcases hdisj with hd | hd
    · exact Or.inl hd
    · refine Or.inr ?_
      show s.width ≤ k + ([] : List (Option α)).length
      simp only [List.length_nil, Nat.add_zero]
      exact hd
  | cons h rest' ih =>
    intro k s oh hrect hw hohlen hdisj
    have hunf : pyEnum (k + 1) (h :: rest') = (k + 1, h) :: pyEnum (k + 1 + 1) rest' := rfl
    rw [hunf, addColsGo_cons]
    by_cases hmem : h ∈ oh
    · have hstep : addColsStep SyncType.moverows (s, oh) (k + 1, h) = (s, oh) := by
        unfold addColsStep
        rw [if_pos hmem]
      rw [hstep]
      have hdisj' : oh = s.header ∨ s.width ≤ k + 1 := by
        rcases hdisj with h1 | h1
        · exact Or.inl h1
        · exact Or.inr (by omega)
      obtain ⟨h1, h2, h3, h4, h5, h6, h7, h8⟩ := ih (k + 1) s oh hrect hw hohlen hdisj'
      refine ⟨h1, h2, h3, ?_, h5, h6, h7, fun v hv => ?_⟩
      · rcases h4 with h4 | h4
        · exact Or.inl h4
        · exact Or.inr (by simp only [List.length_cons]; omega)
      · rcases List.mem_cons.mp hv with hv | hv
        · rw [hv]
          exact h7 h hmem
        · exact h8 v hv
    · have hstep : addColsStep SyncType.moverows (s, oh) (k + 1, h) =
          ((s.insertCols (k + 1)).setCell1 (k + 1) h, pyInsert oh k h) := by
        unfold addColsStep
        rw [if_neg hmem]
        rfl
      rw [hstep]
      by_cases hA : oh = s.header ∧ k ≤ s.width
      · -- in-sync insertion at a position at most one past the width
        obtain ⟨hsync, hkw⟩ := hA
        set s2 := (s.insertCols (k + 1)).setCell1 (k + 1) h with hs2
        have hc : k + 1 ≤ s.width + 1 := by omega
        have hrect2 : s2.Rect := moverows_insert_rect hrect (by omega) hc h
        have hw2 : s2.width = s.width + 1 := moverows_insert_width hrect (by omega) hc h
        have hh2 : s2.header = pyInsert s.header k h := by
          have := moverows_insert_header hrect (by omega) hc h
          simpa using this
        have hsync2 : pyInsert oh k h = s2.header := by
          rw [hh2, hsync]
        have hlen2 : (pyInsert oh k h).length ≤ s2.width := by
          rw [pyInsert_length, hw2]
          omega
        obtain ⟨h1, h2, h3, h4, h5, h6, h7, h8⟩ :=
          ih (k + 1) s2 (pyInsert oh k h) hrect2 (by omega) hlen2 (Or.inl hsync2)
        refine ⟨h1, h2, h3, ?_, by omega, ?_, ?_, fun v hv => ?_⟩
        · rcases h4 with h4 | h4
          · exact Or.inl h4
          · exact Or.inr (by simp only [List.length_cons]; omega)
        · rw [h6, hs2, moverows_insert_rows_length hrect (by omega) hc h]
        · intro v hv
          exact h7 v (pyInsert_mem_of_mem k h hv)
        · rcases List.mem_cons.mp hv with hv | hv
          · rw [hv]
            exact h7 h (pyInsert_mem_self oh k h)
          · exact h8 v hv
      · -- a "gap" insertion: the write lands past the grid, whose width becomes k+1
        have hwk : s.width ≤ k := by
          rcases hdisj with h1 | h1
          · rcases Nat.lt_or_ge s.width (k + 1) with h2 | h2
            · omega
            · exact absurd ⟨h1, by omega⟩ hA
          · exact h1
        have hins : s.insertCols (k + 1) = s := Sheet.insertCols_of_gt (by omega)
        set s2 := (s.insertCols (k + 1)).setCell1 (k + 1) h with hs2
        have hs2eq : s2 = s.setCell1 (k + 1) h := by rw [hs2, hins]
        have hrect2 : s2.Rect := by
          rw [hs2eq]
          exact Sheet.rect_setCell1 hrect _ _
        have hw2 : s2.width = k + 1 := by
          rw [hs2eq, Sheet.width_setCell1 hrect.1, Nat.max_eq_right (by omega)]
        have hlen2 : (pyInsert oh k h).length ≤ s2.width := by
          rw [pyInsert_length, hw2]
          omega
        obtain ⟨h1, h2, h3, h4, h5, h6, h7, h8⟩ :=
          ih (k + 1) s2 (pyInsert oh k h) hrect2 (by omega) hlen2 (Or.inr (by omega))
        refine ⟨h1, h2, h3, ?_, by omega, ?_, ?_, fun v hv => ?_⟩
        · rcases h4 with h4 | h4
          · exact Or.inl h4
          · exact Or.inr (by simp only [List.length_cons]; omega)
        · rw [h6, hs2eq, Sheet.rows_length_setCell1 hrect.1]
        · intro v hv
          exact h7 v (pyInsert_mem_of_mem k h hv)
        · rcases List.mem_cons.mp hv with hv | hv
          · rw [hv]
            exact h7 h (pyInsert_mem_self oh k h)
          · exact h8 v hv

/-! ### The deletion phase -/

theorem insertDesc_all_gt {a : Nat} :
    ∀ {m : List Nat}, (∀ b ∈ m, a < b) → insertDesc a m = m ++ [a] := by
  intro m
  induction m with
  | nil => intro _; rfl
  | cons b l ih =>
    intro hall
    unfold insertDesc
    rw [if_neg (by have := hall b (by simp); omega)]
    rw [ih (fun c hc => hall c (by simp [hc]))]
    rfl

theorem sortDesc_of_ascending :
    ∀ {l : List Nat}, List.Pairwise (· < ·) l → sortDesc l = l.reverse := by
  intro l
  induction l with
  | nil => intro _; rfl
  | cons a t ih =>
    intro hp
    show insertDesc a (sortDesc t) = (a :: t).reverse
    rw [ih hp.of_cons, List.reverse_cons]
    apply insertDesc_all_gt
    intro b hb
    exact List.rel_of_pairwise_cons hp (List.mem_reverse.mp hb)

theorem sortDesc_length : ∀ (l : List Nat), (sortDesc l).length = l.length := by
  have hins : ∀ (a : Nat) (m : List Nat), (insertDesc a m).length = m.length + 1 := by
    intro a m
    induction m with
    | nil => rfl
    | cons b l ih =>
      unfold insertDesc
      by_cases hba : b ≤ a
      · rw [if_pos hba]
        rfl
      · rw [if_neg hba]
        simp [ih]
  intro l
  induction l with
  | nil => rfl
  | cons a t ih =>
    show (insertDesc a (sortDesc t)).length = t.length + 1
    rw [hins, ih]

theorem pyEnum_succ_map {β : Type} :
    ∀ (n : Nat) (l : List β), pyEnum (n + 1) l = (pyEnum n l).map (fun q => (q.1 + 1, q.2)) := by
  intro n l
  induction l generalizing n with
  | nil => rfl
  | cons a t ih =>
    show (n + 1, a) :: pyEnum (n + 1 + 1) t = (n + 1, a) :: (pyEnum (n + 1) t).map _
    rw [ih (n + 1)]

theorem pyEnum_pairwise {β : Type} :
    ∀ (n : Nat) (l : List β), List.Pairwise (fun p q => p.1 < q.1) (pyEnum n l) := by
  intro n l
  induction l generalizing n with
  | nil => exact List.Pairwise.nil
  | cons a t ih =>
    refine List.Pairwise.cons ?_ (ih (n + 1))
    intro q hq
    have := (pyEnum_mem_spec hq).1
    simpa using by omega

theorem colsToDelete_pairwise {α : Type} [DecidableEq α]
    (oh new : List (Option α)) : List.Pairwise (· < ·) (colsToDelete oh new) := by
  unfold colsToDelete
  rw [List.pairwise_map]
  exact (pyEnum_pairwise 1 oh).filter _

theorem colsToDelete_pos {α : Type} [DecidableEq α]
    {oh new : List (Option α)} {p : Nat} (hp : p ∈ colsToDelete oh new) : 1 ≤ p := by
  unfold colsToDelete at hp
  obtain ⟨q, hq, rfl⟩ := List.mem_map.mp hp
  exact (pyEnum_mem_spec (List.mem_of_mem_filter hq)).1

theorem colsToDelete_cons {α : Type} [DecidableEq α] (a : Option α)
    (t new : List (Option α)) :
    colsToDelete (a :: t) new =
      (if a ∈ new then [] else [1]) ++ (colsToDelete t new).map (· + 1) := by
  unfold colsToDelete
  have h1 : pyEnum 1 (a :: t) = (1, a) :: pyEnum 2 t := rfl
  have h2 : pyEnum 2 t = (pyEnum 1 t).map (fun q => (q.1 + 1, q.2)) := pyEnum_succ_map 1 t
  rw [h1, List.filter_cons, h2, List.filter_map, List.map_map]
  by_cases hmem : a ∈ new
  · simp [hmem, Function.comp_def]
  · simp [hmem, Function.comp_def]

theorem colsToDelete_nil_of_all {α : Type} [DecidableEq α]
    {oh new : List (Option α)} (h : ∀ v ∈ oh, v ∈ new) : colsToDelete oh new = [] := by
  induction oh with
  | nil => rfl
  | cons a t ih =>
    rw [colsToDelete_cons, if_pos (h a (by simp)), List.nil_append,
      ih (fun v hv => h v (by simp [hv]))]
    rfl

theorem colsToDelete_length {α : Type} [DecidableEq α] (oh new : List (Option α)) :
    (colsToDelete oh new).length = oh.countP (fun v => !(decide (v ∈ new))) := by
  induction oh with
  | nil => rfl
  | cons a t ih =>
    rw [colsToDelete_cons, List.length_append, List.length_map, ih, List.countP_cons]
    by_cases hmem : a ∈ new
    · simp [hmem]
    · simp [hmem]
      omega

theorem countP_lt_length_of_exists {α : Type} [DecidableEq α]
    {oh new : List (Option α)} (h : ∃ v ∈ oh, v ∈ new) :
    oh.countP (fun v => !(decide (v ∈ new))) < oh.length := by
  rcases Nat.lt_or_ge (oh.countP (fun v => !(decide (v ∈ new)))) oh.length with hlt | hge
  · exact hlt
  · exfalso
    have heq : oh.countP (fun v => !(decide (v ∈ new))) = oh.length :=
      Nat.le_antisymm (List.countP_le_length _) hge
    obtain ⟨v, hv, hvnew⟩ := h
    have := List.countP_eq_length.mp heq v hv
    simp [hvnew] at this

theorem deleteColsAll_eq_foldr {α : Type} [DecidableEq α] (s : Sheet α)
    {cols : List Nat} (hasc : List.Pairwise (· < ·) cols) :
    deleteColsAll s cols = cols.foldr (fun p sh => Sheet.deleteCols sh p) s := by
  unfold deleteColsAll
  rw [sortDesc_of_ascending hasc, List.foldl_reverse]

theorem header_deleteCols {α : Type} [DecidableEq α] (s : Sheet α) (p : Nat) :
    (s.deleteCols p).header = Sheet.erase1 s.header p := by
  obtain ⟨rows⟩ := s
  cases rows with
  | nil =>
    show ([] : List (Option α)) = Sheet.erase1 [] p
    simp [Sheet.erase1]
  | cons r rs => rfl

theorem rows_length_deleteCols {α : Type} [DecidableEq α] (s : Sheet α) (p : Nat) :
    (s.deleteCols p).rows.length = s.rows.length := by
  show (s.rows.map _).length = _
  simp

theorem rect_deleteCols {α : Type} [DecidableEq α] {s : Sheet α} (hrect : s.Rect)
    (p : Nat) : (s.deleteCols p).Rect := by
  constructor
  · show s.rows.map _ ≠ []
    simpa using hrect.1
  · intro t ht
    obtain ⟨u, hu, rfl⟩ := List.mem_map.mp ht
    have hul : u.length = s.width := hrect.2 u hu
    have hwd : (s.deleteCols p).width = (Sheet.erase1 s.header p).length := by
      rw [← Sheet.header_length, header_deleteCols]
    rw [hwd]
    simp [Sheet.erase1, hul, Sheet.header_length]

theorem foldr_deleteCols_header {α : Type} [DecidableEq α] :
    ∀ (cols : List Nat) (s : Sheet α),
      (cols.foldr (fun p sh => Sheet.deleteCols sh p) s).header =
        cols.foldr (fun p r => Sheet.erase1 r p) s.header := by
  intro cols
  induction cols with
  | nil => intro s; rfl
  | cons p cols' ih =>
    intro s
    show (Sheet.deleteCols _ p).header = _
    rw [header_deleteCols, ih]
    rfl

theorem foldr_deleteCols_rect {α : Type} [DecidableEq α] :
    ∀ (cols : List Nat) {s : Sheet α}, s.Rect →
      (cols.foldr (fun p sh => Sheet.deleteCols sh p) s).Rect := by
  intro cols
  induction cols with
  | nil => intro s h; exact h
  | cons p cols' ih =>
    intro s h
    exact rect_deleteCols (ih h) p

theorem foldr_deleteCols_rows_length {α : Type} [DecidableEq α] :
    ∀ (cols : List Nat) (s : Sheet α),
      (cols.foldr (fun p sh => Sheet.deleteCols sh p) s).rows.length = s.rows.length := by
  intro cols
  induction cols with
  | nil => intro s; rfl
  | cons p cols' ih =>
    intro s
    show (Sheet.deleteCols _ p).rows.length = _
    rw [rows_length_deleteCols, ih]

theorem foldl_deleteCols_width_le {α : Type} [DecidableEq α] :
    ∀ (cols : List Nat) (s : Sheet α),
      (cols.foldl Sheet.deleteCols s).width ≤ s.width := by
  intro cols
  induction cols with
  | nil => intro s; exact le_rfl
  | cons p cols' ih =>
    intro s
    have h1 : (Sheet.deleteCols s p).width ≤ s.width := by
      rw [← Sheet.header_length, ← Sheet.header_length, header_deleteCols]
      exact Sheet.erase1_length_le _ _
    exact le_trans (ih (Sheet.deleteCols s p)) h1

theorem foldl_deleteCols_width_ge {α : Type} [DecidableEq α] :
    ∀ (cols : List Nat) (s : Sheet α),
      s.width - cols.length ≤ (cols.foldl Sheet.deleteCols s).width := by
  intro cols
  induction cols with
  | nil => intro s; simp
  | cons p cols' ih =>
    intro s
    rw [List.foldl_cons]
    have h1 : s.width - 1 ≤ (Sheet.deleteCols s p).width := by
      rw [← Sheet.header_length, ← Sheet.header_length, header_deleteCols]
      exact Sheet.erase1_length_ge _ _
    have h2 := ih (Sheet.deleteCols s p)
    simp only [List.length_cons]
    omega

theorem deleteColsAll_width_le {α : Type} [DecidableEq α] (s : Sheet α)
    (cols : List Nat) : (deleteColsAll s cols).width ≤ s.width :=
  foldl_deleteCols_width_le _ s

theorem deleteColsAll_width_ge {α : Type} [DecidableEq α] (s : Sheet α)
    (cols : List Nat) : s.width - cols.length ≤ (deleteColsAll s cols).width := by
  have := foldl_deleteCols_width_ge (sortDesc cols) s
  rw [sortDesc_length] at this
  exact this

theorem deleteColsAll_rect {α : Type} [DecidableEq α] {s : Sheet α} (hrect : s.Rect)
    (cols : List Nat) : (deleteColsAll s cols).Rect := by
  unfold deleteColsAll
  have : ∀ (L : List Nat) (t : Sheet α), t.Rect → (L.foldl Sheet.deleteCols t).Rect := by
    intro L
    induction L with
    | nil => intro t h; exact h
    | cons p L' ih => intro t h; exact ih _ (rect_deleteCols h p)
  exact this _ s hrect

theorem deleteColsAll_rows_length {α : Type} [DecidableEq α] (s : Sheet α)
    (cols : List Nat) : (deleteColsAll s cols).rows.length = s.rows.length := by
  unfold deleteColsAll
  have : ∀ (L : List Nat) (t : Sheet α),
      (L.foldl Sheet.deleteCols t).rows.length = t.rows.length := by
    intro L
    induction L with
    | nil => intro t; rfl
    | cons p L' ih =>
      intro t
      rw [List.foldl_cons, ih, rows_length_deleteCols]
  exact this _ s

theorem foldr_erase1_map_succ {α : Type} [DecidableEq α] :
    ∀ (P : List Nat) (a : Option α) (t : List (Option α)), (∀ p ∈ P, 1 ≤ p) →
      (P.map (· + 1)).foldr (fun p r => Sheet.erase1 r p) (a :: t) =
        a :: P.foldr (fun p r => Sheet.erase1 r p) t := by
  intro P
  induction P with
  | nil => intro a t _; rfl
  | cons p P' ih =>
    intro a t hpos
    show Sheet.erase1 ((P'.map (· + 1)).foldr _ (a :: t)) (p + 1) = _
    rw [ih a t (fun q hq => hpos q (by simp [hq])),
      Sheet.erase1_cons_succ _ _ (hpos p (by simp))]
    rfl

/-- Deleting exactly the positions of `cols_to_delete l new` from `l` itself
(the in-sync case) keeps exactly the entries present in `new`. -/
theorem foldr_erase1_colsToDelete {α : Type} [DecidableEq α] (new : List (Option α)) :
    ∀ (l : List (Option α)),
      (colsToDelete l new).foldr (fun p r => Sheet.erase1 r p) l =
        l.filter (fun v => decide (v ∈ new)) := by
  intro l
  induction l with
  | nil => rfl
  | cons a t ih =>
    rw [colsToDelete_cons, List.foldr_append]
    by_cases hmem : a ∈ new
    · rw [if_pos hmem]
      rw [foldr_erase1_map_succ _ a t (fun p hp => colsToDelete_pos hp), ih]
      show a :: _ = _
      rw [List.filter_cons, if_pos (by simpa using hmem)]
    · rw [if_neg hmem]
      rw [foldr_erase1_map_succ _ a t (fun p hp => colsToDelete_pos hp), ih]
      show Sheet.erase1 (a :: _) 1 = _
      rw [Sheet.erase1_cons_one, List.filter_cons, if_neg (by simpa using hmem)]

/-- The whole deletion phase, in the in-sync case: the header row keeps
exactly the entries present in the new header. -/
theorem deleteColsAll_header_sync {α : Type} [DecidableEq α] {s : Sheet α}
    (new : List (Option α)) :
    (deleteColsAll s (colsToDelete s.header new)).header =
      s.header.filter (fun v => decide (v ∈ new)) := by
  rw [deleteColsAll_eq_foldr s (colsToDelete_pairwise s.header new),
    foldr_deleteCols_header, foldr_erase1_colsToDelete]

/-! ### The rename pass -/

theorem renameGo_cons {α : Type} [DecidableEq α] (oh : List (Option α))
    (ch : Nat × Option α) (rest : List (Nat × Option α)) (s : Sheet α) :
    renameGo oh (ch :: rest) s = renameGo oh rest (renameStep oh s ch) := rfl

theorem renameResult_nil_new {α : Type} [DecidableEq α]
    (hd os : List (Option α)) : renameResult hd os [] = hd := by
  cases hd with
  | nil => cases os <;> rfl
  | cons h hs => cases os <;> rfl

theorem renameResult_nil_oh {α : Type} [DecidableEq α]
    (hd ns : List (Option α)) : renameResult hd [] ns = hd := by
  cases hd with
  | nil => cases ns <;> rfl
  | cons h hs => cases ns <;> rfl

theorem renameResult_cons {α : Type} [DecidableEq α] (h o n : Option α)
    (hs os ns : List (Option α)) :
    renameResult (h :: hs) (o :: os) (n :: ns) =
      (if o = n then h else n) :: renameResult hs os ns := rfl

/-- When the tracked list equals the header row itself, the rename pass
overwrites the whole overlapping prefix with the new header's values. -/
theorem renameResult_self {α : Type} [DecidableEq α] :
    ∀ (h new : List (Option α)),
      renameResult h h new = new.take h.length ++ h.drop new.length := by
  intro h
  induction h with
  | nil =>
    intro new
    simp [renameResult_nil_oh]
  | cons x hs ih =>
    intro new
    cases new with
    | nil =>
      rw [renameResult_nil_new]
      simp
    | cons n ns =>
      rw [renameResult_cons, ih ns]
      by_cases hxn : x = n
      · rw [if_pos hxn, hxn]
        simp
      · rw [if_neg hxn]
        simp

theorem take_set_self {β : Type} (l : List β) (i : Nat) (a : β) :
    (l.set i a).take i = l.take i := by
  apply List.ext_getElem?
  intro n
  by_cases hn : n < i
  · rw [List.getElem?_take_of_lt hn, List.getElem?_take_of_lt hn, List.getElem?_set,
      if_neg (by omega)]
  · have h1 : (List.take i (l.set i a)).length ≤ n := by
      simp only [List.length_take, List.length_set]
      omega
    have h2 : (List.take i l).length ≤ n := by
      simp only [List.length_take]
      omega
    rw [List.getElem?_eq_none h1, List.getElem?_eq_none h2]

/-- Characterization of the whole rename pass, starting from column `k + 1`:
data rows are untouched, the shape is unchanged, and the header row becomes
`renameResult` of its suffix against the tracked list and the new header. -/
theorem renameGo_char {α : Type} [DecidableEq α] :
    ∀ (rest : List (Option α)) (k : Nat) (s : Sheet α) (oh : List (Option α)),
      s.Rect → oh.length ≤ s.width →
      (renameGo oh (pyEnum (k + 1) rest) s).rows.length = s.rows.length ∧
      (renameGo oh (pyEnum (k + 1) rest) s).rows.drop 1 = s.rows.drop 1 ∧
      (renameGo oh (pyEnum (k + 1) rest) s).width = s.width ∧
      (renameGo oh (pyEnum (k + 1) rest) s).Rect ∧
      (renameGo oh (pyEnum (k + 1) rest) s).header =
        s.header.take k ++ renameResult (s.header.drop k) (oh.drop k) rest := by
  intro rest
  induction rest with
  | nil =>
    intro k s oh hrect hohw
    refine ⟨rfl, rfl, rfl, hrect, ?_⟩
    rw [renameResult_nil_new, List.take_append_drop]
    rfl
  | cons n rest' ih =>
    intro k s oh hrect hohw
    have hunf : pyEnum (k + 1) (n :: rest') = (k + 1, n) :: pyEnum (k + 1 + 1) rest' := rfl
    rw [hunf, renameGo_cons]
    rcases hoget : oh.get? k with _ | o
    · -- position beyond the tracked list: the step and all later steps skip
      have hstep : renameStep oh s (k + 1, n) = s := by
        unfold renameStep
        show (match oh.get? (k + 1 - 1) with
          | none => s
          | some v => if v = (k + 1, n).2 then s else s.setCell1 (k + 1) (k + 1, n).2) = s
        rw [show k + 1 - 1 = k from rfl, hoget]
      rw [hstep]
      obtain ⟨h1, h2, h3, h4, h5⟩ := ih (k + 1) s oh hrect hohw
      have hohk : oh.length ≤ k := List.get?_eq_none.mp hoget
      refine ⟨h1, h2, h3, h4, ?_⟩
      rw [h5, @List.drop_eq_nil_of_le _ oh (k + 1) (by omega),
        @List.drop_eq_nil_of_le _ oh k hohk,
        renameResult_nil_oh, renameResult_nil_oh, List.take_append_drop,
        List.take_append_drop]
    · have hklt : k < oh.length := by
        by_contra hge
        rw [List.get?_eq_none.mpr (by omega)] at hoget
        exact Option.noConfusion hoget
      have hkw : k < s.width := by omega
      have hohdk : oh.drop k = o :: oh.drop (k + 1) := by
        have h1 : oh[k]? = some o := by rw [← List.get?_eq_getElem?]; exact hoget
        rw [List.drop_eq_getElem_cons hklt]
        rw [List.getElem?_eq_getElem hklt] at h1
        injection h1 with h1
        rw [h1]
      have hhdk : s.header.drop k =
          s.header[k] :: s.header.drop (k + 1) := by
        rw [List.drop_eq_getElem_cons (by rw [Sheet.header_length]; omega)]
      by_cases hon : o = n
      · -- values agree: no write
        have hstep : renameStep oh s (k + 1, n) = s := by
          unfold renameStep
          show (match oh.get? (k + 1 - 1) with
            | none => s
            | some v => if v = (k + 1, n).2 then s else s.setCell1 (k + 1) (k + 1, n).2) = s
          rw [show k + 1 - 1 = k from rfl, hoget]
          show (if o = n then s else s.setCell1 (k + 1) n) = s
          rw [if_pos hon]
        rw [hstep]
        obtain ⟨h1, h2, h3, h4, h5⟩ := ih (k + 1) s oh hrect hohw
        refine ⟨h1, h2, h3, h4, ?_⟩
        rw [h5, hohdk, hhdk, renameResult_cons, if_pos hon]
        have hlen : k < s.header.length := by
          rw [Sheet.header_length]
          omega
        have htk : s.header.take (k + 1) = s.header.take k ++ [s.header[k]] := by
          rw [List.take_succ, List.getElem?_eq_getElem hlen]
          rfl
        rw [htk, List.append_assoc]
        rfl
      · -- values disagree: overwrite the header cell at column k+1
        have hstep : renameStep oh s (k + 1, n) = s.setCell1 (k + 1) n := by
          unfold renameStep
          show (match oh.get? (k + 1 - 1) with
            | none => s
            | some v => if v = (k + 1, n).2 then s else s.setCell1 (k + 1) (k + 1, n).2) = _
          rw [show k + 1 - 1 = k from rfl, hoget]
          show (if o = n then s else s.setCell1 (k + 1) n) = _
          rw [if_neg hon]
        rw [hstep]
        set s2 := s.setCell1 (k + 1) n with hs2
        have hchar : s2 = ⟨(s.header.set k n) :: s.rows.drop 1⟩ := by
          rw [hs2, Sheet.setCell1_of_le hrect (by omega) n]
          rfl
        have hrect2 : s2.Rect := Sheet.rect_setCell1 hrect _ _
        have hw2 : s2.width = s.width := by
          rw [hs2, Sheet.width_setCell1 hrect.1, Nat.max_eq_left (by omega)]
        have hh2 : s2.header = s.header.set k n := by
          rw [hchar]
          rfl
        have hd2 : s2.rows.drop 1 = s.rows.drop 1 := by
          rw [hchar]
          rfl
        have hl2 : s2.rows.length = s.rows.length := by
          rw [hs2, Sheet.rows_length_setCell1 hrect.1]
        obtain ⟨h1, h2, h3, h4, h5⟩ := ih (k + 1) s2 oh hrect2 (by omega)
        refine ⟨by rw [h1, hl2], by rw [h2, hd2], by rw [h3, hw2], h4, ?_⟩
        rw [h5, hh2]
        have htake : (s.header.set k n).take (k + 1) = s.header.take k ++ [n] := by
          rw [List.take_succ, take_set_self, List.getElem?_set,
            if_pos rfl, if_pos (by rw [Sheet.header_length]; omega)]
          rfl
        have hdrop2 : (s.header.set k n).drop (k + 1) = s.header.drop (k + 1) := by
          rw [List.drop_set, if_pos (by omega)]
        rw [htake, hdrop2, hohdk, hhdk, renameResult_cons, if_neg hon,
          List.append_assoc]
        rfl

/-- If at every enumerated position the tracked list agrees with the new
header (or is exhausted), the rename pass changes nothing at all. -/
theorem renameGo_all_eq {α : Type} [DecidableEq α] (oh : List (Option α)) :
    ∀ (pairs : List (Nat × Option α)) (s : Sheet α),
      (∀ ch ∈ pairs, ∀ v, oh.get? (ch.1 - 1) = some v → v = ch.2) →
      renameGo oh pairs s = s := by
  intro pairs
  induction pairs with
  | nil => intro s _; rfl
  | cons ch rest ih =>
    intro s hall
    rw [renameGo_cons]
    have hstep : renameStep oh s ch = s := by
      unfold renameStep
      rcases hoget : oh.get? (ch.1 - 1) with _ | v
      · rfl
      · show (if v = ch.2 then s else s.setCell1 ch.1 ch.2) = s
        rw [if_pos (hall ch (by simp) v hoget)]
    rw [hstep]
    exact ih s (fun c hc v hv => hall c (by simp [hc]) v hv)

/-! ### Assembled characterizations of `syncSheet` -/

theorem syncSheet_false_eq {α : Type} [DecidableEq α] (st : SyncType)
    (new : List (Option α)) (s : Sheet α) :
    syncSheet false st new s =
      renameGo (phase1 st new s).2 (pyEnum 1 new) (phase1 st new s).1 := rfl

theorem syncSheet_true_eq {α : Type} [DecidableEq α] (st : SyncType)
    (new : List (Option α)) (s : Sheet α) :
    syncSheet true st new s =
      renameGo (deletePhase new (phase1 st new s)).header1 (pyEnum 1 new)
        (deletePhase new (phase1 st new s)) := rfl

theorem header1_ne_nil {α : Type} [DecidableEq α] (s : Sheet α) : s.header1 ≠ [] := by
  intro h
  have := Sheet.header1_length s
  rw [h] at this
  unfold Sheet.maxColumn at this
  simp at this
  omega

theorem header1_length_pos {α : Type} [DecidableEq α] (s : Sheet α) :
    0 < s.header1.length := by
  rw [Sheet.header1_length]
  unfold Sheet.maxColumn
  omega

/-- Shape of the phase-1 state produced by the loop invariants, packaged. -/
theorem phase1_spec {α : Type} [DecidableEq α] (st : SyncType)
    (new : List (Option α)) {s : Sheet α} (hwf : s.WF)
    (hnd : st = SyncType.moverows → new.Nodup) :
    (phase1 st new s).1.Rect ∧ 0 < (phase1 st new s).1.width ∧
    (phase1 st new s).2 = (phase1 st new s).1.header ∧
    s.width ≤ (phase1 st new s).1.width ∧
    (phase1 st new s).1.rows.length = s.rows.length ∧
    (∀ v ∈ s.header1, v ∈ (phase1 st new s).2) ∧
    (∀ v ∈ new, v ∈ (phase1 st new s).2) := by
  obtain ⟨hrect, hw⟩ := hwf
  have hsync0 : s.header1 = s.header := Sheet.header1_eq_header hw
  unfold phase1
  cases st with
  | rightmost =>
    obtain ⟨h1, h2, h3, h4, h5, h6, h7⟩ :=
      addColsGo_rightmost_inv (pyEnum 1 new) s s.header1 hrect hw hsync0
    refine ⟨h1, h2, h3, h4, h5, h6, ?_⟩
    intro v hv
    obtain ⟨i, hi⟩ := List.mem_iff_get?.mp hv
    exact h7 (1 + i, v) (pyEnum_mem_of_get? hi)
  | moverows =>
    have hnd' := hnd rfl
    have e01 : pyEnum (0 + 1) new = pyEnum 1 new := rfl
    obtain ⟨h1, h2, h3, h4, h5, h6, h7⟩ :=
      addColsGo_moverows_sync new 0 s s.header1 new hnd' rfl
        (fun i hi v hv => absurd hi (by omega)) hrect hw hsync0
    rw [e01] at h1 h2 h3 h4 h5 h6 h7
    exact ⟨h1, h2, h3, h4, h5, h6, h7⟩

/-- Shape of the phase-1 state for `moverows` without duplicate-freeness:
either the tracked list is the header row, or the width is bounded by the
new header's length. -/
theorem phase1_spec_gen {α : Type} [DecidableEq α] (st : SyncType)
    (new : List (Option α)) {s : Sheet α} (hwf : s.WF) :
    (phase1 st new s).1.Rect ∧ 0 < (phase1 st new s).1.width ∧
    (phase1 st new s).2.length ≤ (phase1 st new s).1.width ∧
    ((phase1 st new s).2 = (phase1 st new s).1.header ∨
      (phase1 st new s).1.width ≤ new.length) ∧
    s.width ≤ (phase1 st new s).1.width ∧
    (phase1 st new s).1.rows.length = s.rows.length ∧
    (∀ v ∈ new, v ∈ (phase1 st new s).2) := by
  obtain ⟨hrect, hw⟩ := hwf
  have hsync0 : s.header1 = s.header := Sheet.header1_eq_header hw
  unfold phase1
  cases st with
  | rightmost =>
    obtain ⟨h1, h2, h3, h4, h5, h6, h7⟩ :=
      addColsGo_rightmost_inv (pyEnum 1 new) s s.header1 hrect hw hsync0
    refine ⟨h1, h2, ?_, Or.inl h3, h4, h5, ?_⟩
    · rw [h3, Sheet.header_length]
    · intro v hv
      obtain ⟨i, hi⟩ := List.mem_iff_get?.mp hv
      exact h7 (1 + i, v) (pyEnum_mem_of_get? hi)
  | moverows =>
    have hohlen : s.header1.length ≤ s.width := by
      rw [hsync0, Sheet.header_length]
    have e01 : pyEnum (0 + 1) new = pyEnum 1 new := rfl
    obtain ⟨h1, h2, h3, h4, h5, h6, h7, h8⟩ :=
      addColsGo_moverows_gen new 0 s s.header1 hrect hw hohlen (Or.inl hsync0)
    rw [e01] at h1 h2 h3 h4 h5 h6 h7 h8
    refine ⟨h1, h2, h3, ?_, h5, h6, h8⟩
    rcases h4 with h4 | h4
    · exact Or.inl h4
    · exact Or.inr (by omega)

/-- After the deletion phase the sheet still has at least one column,
provided the new header row is nonempty. -/
theorem deletePhase_width_pos {α : Type} [DecidableEq α]
    (new : List (Option α)) {s1 : Sheet α} {l1 : List (Option α)}
    (hlen : l1.length ≤ s1.width) (hmem : ∀ v ∈ new, v ∈ l1) (hne : new ≠ []) :
    0 < (deletePhase new (s1, l1)).width := by
  obtain ⟨v0, hv0⟩ : ∃ v0, v0 ∈ new := by
    cases new with
    | nil => exact absurd rfl hne
    | cons a t => exact ⟨a, by simp⟩
  have hcnt : (colsToDelete l1 new).length < l1.length := by
    rw [colsToDelete_length]
    exact countP_lt_length_of_exists ⟨v0, hmem v0 hv0, hv0⟩
  have hge := deleteColsAll_width_ge s1 (colsToDelete l1 new)
  show 0 < (deleteColsAll s1 (colsToDelete l1 new)).width
  omega

/-- Final header of `syncSheet` with `allow_delete = true`: a pointwise
prefix of the new header followed by the surviving tail of the post-deletion
header. -/
theorem syncSheet_true_char {α : Type} [DecidableEq α] (st : SyncType)
    (new : List (Option α)) {s : Sheet α}
    (hrect1 : (phase1 st new s).1.Rect)
    (hlen1 : (phase1 st new s).2.length ≤ (phase1 st new s).1.width)
    (hmem1 : ∀ v ∈ new, v ∈ (phase1 st new s).2)
    (hne : new ≠ []) :
    0 < (deletePhase new (phase1 st new s)).width ∧
    (syncSheet true st new s).header =
      new.take (deletePhase new (phase1 st new s)).width ++
        (deletePhase new (phase1 st new s)).header.drop new.length ∧
    (syncSheet true st new s).width = (deletePhase new (phase1 st new s)).width ∧
    (syncSheet true st new s).rows.length = (phase1 st new s).1.rows.length ∧
    (syncSheet true st new s).Rect := by
  have hwpos : 0 < (deletePhase new (phase1 st new s)).width := by
    have := deletePhase_width_pos new hlen1 hmem1 hne
    have heq : (phase1 st new s).1 = ((phase1 st new s).1, (phase1 st new s).2).1 := rfl
    simpa using this
  set s2 := deletePhase new (phase1 st new s) with hs2
  have hrect2 : s2.Rect := deleteColsAll_rect hrect1 _
  have hh12 : s2.header1 = s2.header := Sheet.header1_eq_header hwpos
  have hohw : s2.header1.length ≤ s2.width := by
    rw [hh12, Sheet.header_length]
  obtain ⟨h1, h2, h3, h4, h5⟩ := renameGo_char new 0 s2 s2.header1 hrect2 hohw
  have hsync : (syncSheet true st new s) = renameGo s2.header1 (pyEnum 1 new) s2 :=
    syncSheet_true_eq st new s
  have h5' : (renameGo s2.header1 (pyEnum 1 new) s2).header =
      s2.header.take 0 ++ renameResult (s2.header.drop 0) (s2.header1.drop 0) new := h5
  refine ⟨hwpos, ?_, ?_, ?_, ?_⟩
  · rw [hsync, h5']
    rw [List.take_zero, List.drop_zero, List.drop_zero, List.nil_append, hh12,
      renameResult_self, Sheet.header_length]
  · have h3' : (renameGo s2.header1 (pyEnum 1 new) s2).width = s2.width := h3
    rw [hsync, h3']
  · have h1' : (renameGo s2.header1 (pyEnum 1 new) s2).rows.length = s2.rows.length := h1
    rw [hsync, h1', hs2]
    unfold deletePhase
    rw [deleteColsAll_rows_length]
  · have h4' : (renameGo s2.header1 (pyEnum 1 new) s2).Rect := h4
    rw [hsync]
    exact h4'

/-- Final header of `syncSheet` with `allow_delete = false`, in the in-sync
case: the new header, truncated to the final width, followed by the leftover
old columns. -/
theorem syncSheet_false_char {α : Type} [DecidableEq α] (st : SyncType)
    (new : List (Option α)) {s : Sheet α}
    (hrect1 : (phase1 st new s).1.Rect)
    (hsync1 : (phase1 st new s).2 = (phase1 st new s).1.header) :
    (syncSheet false st new s).header =
      new.take (phase1 st new s).1.width ++
        (phase1 st new s).1.header.drop new.length ∧
    (syncSheet false st new s).width = (phase1 st new s).1.width ∧
    (syncSheet false st new s).rows.length = (phase1 st new s).1.rows.length ∧
    (syncSheet false st new s).Rect := by
  set s1 := (phase1 st new s).1 with hs1
  have hohw : (phase1 st new s).2.length ≤ s1.width := by
    rw [hsync1, Sheet.header_length]
  obtain ⟨h1, h2, h3, h4, h5⟩ := renameGo_char new 0 s1 (phase1 st new s).2 hrect1 hohw
  have hsync : (syncSheet false st new s) =
      renameGo (phase1 st new s).2 (pyEnum 1 new) s1 := syncSheet_false_eq st new s
  have h5' : (renameGo (phase1 st new s).2 (pyEnum 1 new) s1).header =
      s1.header.take 0 ++ renameResult (s1.header.drop 0) ((phase1 st new s).2.drop 0) new := h5
  refine ⟨?_, ?_, ?_, ?_⟩
  · rw [hsync, h5', List.take_zero, List.drop_zero, List.drop_zero, List.nil_append,
      hsync1, renameResult_self, Sheet.header_length]
  · have h3' : (renameGo (phase1 st new s).2 (pyEnum 1 new) s1).width = s1.width := h3
    rw [hsync, h3']
  · have h1' : (renameGo (phase1 st new s).2 (pyEnum 1 new) s1).rows.length =
        s1.rows.length := h1
    rw [hsync, h1']
  · have h4' : (renameGo (phase1 st new s).2 (pyEnum 1 new) s1).Rect := h4
    rw [hsync]
    exact h4'

/-- With `allow_delete = true`, every value left in the final header row
occurs in the new header row. -/
theorem syncSheet_true_values {α : Type} [DecidableEq α] (st : SyncType)
    (new : List (Option α)) {s : Sheet α} (hwf : s.WF) (hne : new ≠ []) :
    ∀ v ∈ (syncSheet true st new s).header, v ∈ new := by
  obtain ⟨hrect1, hw1, hlen1, hdisj, _, _, hmem1⟩ := phase1_spec_gen st new hwf
  obtain ⟨hwpos, hhead, hwidth, _, _⟩ := syncSheet_true_char st new hrect1 hlen1 hmem1 hne
  intro v hv
  rw [hhead] at hv
  rcases List.mem_append.mp hv with hv | hv
  · exact List.mem_of_mem_take hv
  · rcases hdisj with hsync | hwle
    · -- in-sync: the deletion phase keeps exactly the entries present in `new`
      have hh2 : (deletePhase new (phase1 st new s)).header =
          (phase1 st new s).1.header.filter (fun v => decide (v ∈ new)) := by
        unfold deletePhase
        rw [← hsync]
        have := @deleteColsAll_header_sync _ _ (phase1 st new s).1 new
        rw [← hsync] at this
        exact this
      rw [hh2] at hv
      have := List.of_mem_filter (List.mem_of_mem_drop hv)
      simpa using this
    · -- gap case: the post-deletion width is within the new header's length
      exfalso
      have hw2le : (deletePhase new (phase1 st new s)).width ≤ (phase1 st new s).1.width :=
        deleteColsAll_width_le _ _
      have hlen2 : (deletePhase new (phase1 st new s)).header.length ≤ new.length := by
        rw [Sheet.header_length]
        omega
      rw [List.drop_eq_nil_of_le hlen2] at hv
      simp at hv

/-- With a duplicate-free new header row, the final header starts with the
new header, every new name occurs in it, and (with `allow_delete`) nothing
else does. -/
theorem syncSheet_nodup_char {α : Type} [DecidableEq α] (ad : Bool) (st : SyncType)
    (new : List (Option α)) {s : Sheet α} (hwf : s.WF) (hnd : new.Nodup)
    (hne : new ≠ []) :
    0 < (syncSheet ad st new s).width ∧
    (syncSheet ad st new s).header.take new.length = new ∧
    (∀ v ∈ new, v ∈ (syncSheet ad st new s).header) ∧
    (ad = true → ∀ v ∈ (syncSheet ad st new s).header, v ∈ new) := by
  obtain ⟨hrect1, hw1, hsync1, _, _, _, hmem1⟩ := phase1_spec st new hwf (fun _ => hnd)
  have hnw1 : new.length ≤ (phase1 st new s).1.width := by
    have hsub : new ⊆ (phase1 st new s).2 := fun v hv => hmem1 v hv
    have := (List.subperm_of_subset hnd hsub).length_le
    rw [hsync1, Sheet.header_length] at this
    exact this
  cases ad with
  | false =>
    obtain ⟨hhead, hwidth, _, _⟩ := syncSheet_false_char st new hrect1 hsync1
    have htk : new.take (phase1 st new s).1.width = new := List.take_of_length_le hnw1
    rw [htk] at hhead
    refine ⟨by omega, ?_, ?_, by intro h; exact absurd h (by simp)⟩
    · rw [hhead]
      exact List.take_left' rfl
    · intro v hv
      rw [hhead]
      exact List.mem_append_left _ hv
  | true =>
    have hlen1 : (phase1 st new s).2.length ≤ (phase1 st new s).1.width := by
      rw [hsync1, Sheet.header_length]
    obtain ⟨hwpos, hhead, hwidth, _, _⟩ :=
      syncSheet_true_char st new hrect1 hlen1 hmem1 hne
    have hh2 : (deletePhase new (phase1 st new s)).header =
        (phase1 st new s).1.header.filter (fun v => decide (v ∈ new)) := by
      unfold deletePhase
      rw [← hsync1]
      have := @deleteColsAll_header_sync _ _ (phase1 st new s).1 new
      rw [← hsync1] at this
      exact this
    have hsubh2 : new ⊆ (deletePhase new (phase1 st new s)).header := by
      intro v hv
      rw [hh2]
      refine List.mem_filter.mpr ⟨?_, by simpa using hv⟩
      rw [← hsync1]
      exact hmem1 v hv
    have hnw2 : new.length ≤ (deletePhase new (phase1 st new s)).width := by
      have := (List.subperm_of_subset hnd hsubh2).length_le
      rw [Sheet.header_length] at this
      exact this
    have htk : new.take (deletePhase new (phase1 st new s)).width = new :=
      List.take_of_length_le hnw2
    rw [htk] at hhead
    refine ⟨by omega, ?_, ?_, ?_⟩
    · rw [hhead]
      exact List.take_left' rfl
    · intro v hv
      rw [hhead]
      exact List.mem_append_left _ hv
    · intro _ v hv
      rw [hhead] at hv
      rcases List.mem_append.mp hv with hv | hv
      · exact hv
      · have := List.of_mem_filter (hh2 ▸ List.mem_of_mem_drop hv)
        simpa using this

theorem deleteColsAll_nil {α : Type} [DecidableEq α] (s : Sheet α) :
    deleteColsAll s [] = s := rfl

/-- Reconciling a sheet twice against the same (duplicate-free) new header
row is the same as reconciling it once: the second run changes nothing. -/
theorem syncSheet_idem {α : Type} [DecidableEq α] (ad : Bool) (st : SyncType)
    (new : List (Option α)) {s : Sheet α} (hwf : s.WF) (hnd : new.Nodup)
    (hne : new ≠ []) :
    syncSheet ad st new (syncSheet ad st new s) = syncSheet ad st new s := by
  obtain ⟨hw, hpre, hmemn, himp⟩ := syncSheet_nodup_char ad st new hwf hnd hne
  set o1 := syncSheet ad st new s with ho1
  have hh1 : o1.header1 = o1.header := Sheet.header1_eq_header hw
  have hphase1 : phase1 st new o1 = (o1, o1.header1) := by
    unfold phase1
    apply addColsGo_all_mem
    intro ch hch
    have hspec := pyEnum_mem_spec hch
    have hmem : ch.2 ∈ new := List.get?_mem hspec.2.2
    rw [hh1]
    exact hmemn _ hmem
  have hrename : renameGo o1.header1 (pyEnum 1 new) o1 = o1 := by
    apply renameGo_all_eq
    intro ch hch v hv
    obtain ⟨hle, hlt, hget⟩ := pyEnum_mem_spec hch
    have hilt : ch.1 - 1 < new.length := by omega
    have hhget : o1.header.get? (ch.1 - 1) = new.get? (ch.1 - 1) := by
      rw [← hpre, List.get?_take hilt]
    rw [hh1, hhget, hget] at hv
    injection hv with hv
    exact hv.symm
  cases ad with
  | false =>
    rw [syncSheet_false_eq st new o1, hphase1]
    exact hrename
  | true =>
    rw [syncSheet_true_eq st new o1, hphase1]
    have hctd : colsToDelete (o1, o1.header1).2 new = [] := by
      apply colsToDelete_nil_of_all
      intro v hv
      rw [hh1] at hv
      exact himp rfl v hv
    have hdel : deletePhase new (o1, o1.header1) = o1 := by
      unfold deletePhase
      rw [hctd, deleteColsAll_nil]
    rw [hdel]
    exact hrename

/-! ### Workbook-level facts -/

theorem syncWorkbook_nil {α : Type} [DecidableEq α] (ad : Bool) (st : SyncType)
    (pat : Option (RegularExpression Char)) (oldWb : Workbook α) :
    syncWorkbook ad st pat [] oldWb = oldWb := rfl

theorem syncWorkbook_cons {α : Type} [DecidableEq α] (ad : Bool) (st : SyncType)
    (pat : Option (RegularExpression Char)) (q : String × Sheet α)
    (rest : List (String × Sheet α)) (oldWb : Workbook α) :
    syncWorkbook ad st pat (q :: rest) oldWb =
      syncWorkbook ad st pat rest
        (if ignoreSheetB pat q.1 then oldWb
         else if q.1 ∈ sheetNames oldWb then
           updateSheet oldWb q.1 (syncSheet ad st q.2.header1)
         else oldWb) := rfl

theorem sheetNames_updateSheet {α : Type} [DecidableEq α] (wb : Workbook α)
    (n : String) (f : Sheet α → Sheet α) :
    sheetNames (updateSheet wb n f) = sheetNames wb := by
  unfold sheetNames updateSheet
  rw [List.map_map]
  apply List.map_congr_left
  intro q _
  by_cases hq : q.1 = n
  · simp [hq]
  · simp [hq]

theorem updateSheet_not_mem {α : Type} [DecidableEq α] {wb : Workbook α}
    {n : String} (hn : n ∉ sheetNames wb) (f : Sheet α → Sheet α) :
    updateSheet wb n f = wb := by
  unfold updateSheet
  have h : ∀ q ∈ wb, (if q.1 = n then (q.1, f q.2) else q) = q := by
    intro q hq
    rw [if_neg]
    intro he
    exact hn (by rw [← he]; exact List.mem_map_of_mem Prod.fst hq)
  exact (List.map_congr_left h).trans (List.map_id wb)

/-- One step of the sheet loop expressed as a `map` over the old workbook. -/
theorem syncStep_map {α : Type} [DecidableEq α] (n : String)
    (f : Sheet α → Sheet α) (b : Bool) (wb : Workbook α) :
    (if b then wb
     else if n ∈ sheetNames wb then updateSheet wb n f else wb) =
      wb.map (fun q => if q.1 = n ∧ b = false then (q.1, f q.2) else q) := by
  cases b with
  | true =>
    rw [if_pos rfl]
    have h : ∀ q ∈ wb, (if q.1 = n ∧ true = false then (q.1, f q.2) else q) = q := by
      intro q _
      rw [if_neg (by simp)]
    exact ((List.map_congr_left h).trans (List.map_id wb)).symm
  | false =>
    rw [if_neg (by simp)]
    by_cases hn : n ∈ sheetNames wb
    · rw [if_pos hn]
      unfold updateSheet
      apply List.map_congr_left
      intro q _
      by_cases hq : q.1 = n
      · rw [if_pos hq, if_pos ⟨hq, rfl⟩]
      · rw [if_neg hq, if_neg (by simp [hq])]
    · rw [if_neg hn]
      have h : ∀ q ∈ wb, (if q.1 = n ∧ false = false then (q.1, f q.2) else q) = q := by
        intro q hq
        rw [if_neg]
        intro he
        exact hn (by rw [← he.1]; exact List.mem_map_of_mem Prod.fst hq)
      exact ((List.map_congr_left h).trans (List.map_id wb)).symm

theorem applySheet_of_none {α : Type} [DecidableEq α] {ad : Bool} {st : SyncType}
    {pat : Option (RegularExpression Char)} {nw : Workbook α} {q : String × Sheet α}
    (h : nw.find? (fun r => decide (r.1 = q.1)) = none) :
    applySheet ad st pat nw q = q := by
  unfold applySheet
  rw [h]

theorem applySheet_of_some_ignored {α : Type} [DecidableEq α] {ad : Bool}
    {st : SyncType} {pat : Option (RegularExpression Char)} {nw : Workbook α}
    {q r : String × Sheet α}
    (h : nw.find? (fun x => decide (x.1 = q.1)) = some r)
    (hig : ignoreSheetB pat q.1 = true) :
    applySheet ad st pat nw q = q := by
  unfold applySheet
  rw [h]
  show (if ignoreSheetB pat q.1 then q else (q.1, syncSheet ad st r.2.header1 q.2)) = q
  rw [if_pos hig]

theorem applySheet_of_some {α : Type} [DecidableEq α] {ad : Bool}
    {st : SyncType} {pat : Option (RegularExpression Char)} {nw : Workbook α}
    {q r : String × Sheet α}
    (h : nw.find? (fun x => decide (x.1 = q.1)) = some r)
    (hig : ignoreSheetB pat q.1 = false) :
    applySheet ad st pat nw q = (q.1, syncSheet ad st r.2.header1 q.2) := by
  unfold applySheet
  rw [h]
  show (if ignoreSheetB pat q.1 then q else (q.1, syncSheet ad st r.2.header1 q.2)) = _
  rw [if_neg (by simp [hig])]

theorem applySheet_fst {α : Type} [DecidableEq α] (ad : Bool) (st : SyncType)
    (pat : Option (RegularExpression Char)) (nw : Workbook α) (q : String × Sheet α) :
    (applySheet ad st pat nw q).1 = q.1 := by
  rcases hf : nw.find? (fun r => decide (r.1 = q.1)) with _ | r
  · rw [applySheet_of_none hf]
  · rcases hig : ignoreSheetB pat q.1 with _ | _
    · rw [applySheet_of_some hf hig]
    · rw [applySheet_of_some_ignored hf hig]

/-- The whole sheet loop as a per-sheet `map`, when the new workbook's
sheet names are distinct (as openpyxl guarantees). -/
theorem syncWorkbook_char {α : Type} [DecidableEq α] (ad : Bool) (st : SyncType)
    (pat : Option (RegularExpression Char)) :
    ∀ (nw : Workbook α), (sheetNames nw).Nodup → ∀ (ow : Workbook α),
      syncWorkbook ad st pat nw ow = ow.map (applySheet ad st pat nw) := by
  intro nw
  induction nw with
  | nil =>
    intro _ ow
    rw [syncWorkbook_nil]
    have h : ∀ q ∈ ow, applySheet ad st pat [] q = q := by
      intro q _
      exact applySheet_of_none rfl
    exact ((List.map_congr_left h).trans (List.map_id ow)).symm
  | cons r rest ih =>
    intro hnd ow
    have hcons : sheetNames (r :: rest) = r.1 :: sheetNames rest := rfl
    rw [hcons] at hnd
    have hrn : r.1 ∉ sheetNames rest := (List.nodup_cons.mp hnd).1
    have hndr : (sheetNames rest).Nodup := (List.nodup_cons.mp hnd).2
    rw [syncWorkbook_cons,
      syncStep_map r.1 (syncSheet ad st r.2.header1) (ignoreSheetB pat r.1) ow,
      ih hndr, List.map_map]
    apply List.map_congr_left
    intro q _
    simp only [Function.comp_apply]
    by_cases hq : q.1 = r.1
    · have hfn : ∀ (u : String × Sheet α), u.1 = q.1 →
          List.find? (fun x => decide (x.1 = u.1)) rest = none := by
        intro u hu
        rw [List.find?_eq_none]
        intro x hx
        simp only [decide_eq_true_eq]
        intro he
        have hxr : x.1 = r.1 := by rw [he, hu, hq]
        exact hrn (hxr ▸ List.mem_map_of_mem Prod.fst hx)
      have hfr : List.find? (fun x => decide (x.1 = q.1)) (r :: rest) = some r := by
        rw [List.find?_cons_of_pos]
        simp [hq]
      by_cases hig : ignoreSheetB pat r.1 = true
      · have higq : ignoreSheetB pat q.1 = true := by rw [hq]; exact hig
        have hstep : (if q.1 = r.1 ∧ ignoreSheetB pat r.1 = false then
            (q.1, syncSheet ad st r.2.header1 q.2) else q) = q := by
          rw [if_neg (by simp [hig])]
        rw [hstep, applySheet_of_none (hfn q rfl),
          applySheet_of_some_ignored hfr higq]
      · have higq : ignoreSheetB pat q.1 = false := by
          rw [hq]
          simpa using hig
        have hstep : (if q.1 = r.1 ∧ ignoreSheetB pat r.1 = false then
            (q.1, syncSheet ad st r.2.header1 q.2) else q) =
            (q.1, syncSheet ad st r.2.header1 q.2) := by
          rw [if_pos ⟨hq, by simpa using hig⟩]
        rw [hstep,
          @applySheet_of_none _ _ ad st pat rest (q.1, syncSheet ad st r.2.header1 q.2)
            (hfn (q.1, syncSheet ad st r.2.header1 q.2) rfl),
          applySheet_of_some hfr higq]
    · have hstep : (if q.1 = r.1 ∧ ignoreSheetB pat r.1 = false then
          (q.1, syncSheet ad st r.2.header1 q.2) else q) = q := by
        rw [if_neg (by simp [hq])]
      have hfr : List.find? (fun x => decide (x.1 = q.1)) (r :: rest) =
          List.find? (fun x => decide (x.1 = q.1)) rest := by
        rw [List.find?_cons_of_neg]
        simp only [decide_eq_true_eq]
        intro he
        exact hq he.symm
      rw [hstep]
      unfold applySheet
      rw [hfr]

/-- Running the sheet loop twice with the same policy changes nothing the
second time, provided the new workbook's sheet names are unique, its header
rows are duplicate-free, and the old sheets are well-formed. -/
theorem syncWorkbook_idem {α : Type} [DecidableEq α] (ad : Bool) (st : SyncType)
    (pat : Option (RegularExpression Char)) (nw ow : Workbook α)
    (hnn : (sheetNames nw).Nodup) (hnd : ∀ r ∈ nw, r.2.header1.Nodup)
    (hwf : ∀ q ∈ ow, q.2.WF) :
    syncWorkbook ad st pat nw (syncWorkbook ad st pat nw ow) =
      syncWorkbook ad st pat nw ow := by
  rw [syncWorkbook_char ad st pat nw hnn ow, syncWorkbook_char ad st pat nw hnn _,
    List.map_map]
  apply List.map_congr_left
  intro q hq
  simp only [Function.comp_apply]
  rcases hf : nw.find? (fun r => decide (r.1 = q.1)) with _ | r
  · rw [applySheet_of_none hf, applySheet_of_none hf]
  · rcases hig : ignoreSheetB pat q.1 with _ | _
    · rw [applySheet_of_some hf hig]
      have hf' : nw.find? (fun x => decide (x.1 =
          (q.1, syncSheet ad st r.2.header1 q.2).1)) = some r := hf
      have hig' : ignoreSheetB pat (q.1, syncSheet ad st r.2.header1 q.2).1 = false := hig
      rw [applySheet_of_some hf' hig']
      have hidem := syncSheet_idem ad st r.2.header1 (hwf q hq)
        (hnd r (List.mem_of_find?_eq_some hf)) (header1_ne_nil r.2)
      rw [hidem]
    · rw [applySheet_of_some_ignored hf hig, applySheet_of_some_ignored hf hig]

/-- A sheet whose name matches the ignore pattern is left completely
unchanged by the sheet loop. -/
theorem syncWorkbook_ignored_mem {α : Type} [DecidableEq α] (ad : Bool)
    (st : SyncType) (pat : Option (RegularExpression Char)) :
    ∀ (nw ow : Workbook α) {q : String × Sheet α}, q ∈ ow →
      ignoreSheetB pat q.1 = true → q ∈ syncWorkbook ad st pat nw ow := by
  intro nw
  induction nw with
  | nil =>
    intro ow q hq _
    rw [syncWorkbook_nil]
    exact hq
  | cons r rest ih =>
    intro ow q hq hig
    rw [syncWorkbook_cons]
    refine ih _ ?_ hig
    by_cases higr : ignoreSheetB pat r.1 = true
    · rw [if_pos higr]
      exact hq
    · rw [if_neg higr]
      by_cases hmem : r.1 ∈ sheetNames ow
      · rw [if_pos hmem]
        unfold updateSheet
        refine List.mem_map.mpr ⟨q, hq, ?_⟩
        rw [if_neg]
        intro he
        exact higr (by rw [← he]; exact hig)
      · rw [if_neg hmem]
        exact hq

/-! ### `re.match` semantics -/

/-- `re.match` succeeds exactly when some prefix of the string belongs to
the pattern's language: start-anchored matching. -/
theorem pyReMatch_iff (r : RegularExpression Char) (s : List Char) :
    pyReMatch r s = true ↔ ∃ t, t <+: s ∧ t ∈ r.matches' := by
  unfold pyReMatch
  rw [List.any_eq_true]
  constructor
  · rintro ⟨n, _, hm⟩
    exact ⟨s.take n, List.take_prefix n s,
      (RegularExpression.rmatch_iff_matches' r _).mp hm⟩
  · rintro ⟨t, hpre, hm⟩
    refine ⟨t.length, ?_, ?_⟩
    · rw [List.mem_range]
      have := hpre.length_le
      omega
    · have ht : s.take t.length = t := (List.prefix_iff_eq_take.mp hpre).symm
      rw [ht]
      exact (RegularExpression.rmatch_iff_matches' r t).mpr hm

/-! ### Shape of a single column insertion, per strategy -/

theorem pyInsert_get?_self {β : Type} (l : List β) {i : Nat} (h : i ≤ l.length)
    (a : β) : (pyInsert l i a).get? i = some a := by
  unfold pyInsert
  have hlt : (l.take i).length = i := by
    rw [List.length_take]
    omega
  rw [List.get?_append_right (le_of_eq hlt), hlt, Nat.sub_self]
  rfl

theorem pyInsert_get?_gt {β : Type} (l : List β) {i q : Nat} (hi : i ≤ l.length)
    (hq : i < q) (a : β) : (pyInsert l i a).get? q = l.get? (q - 1) := by
  unfold pyInsert
  have hlt : (l.take i).length = i := by
    rw [List.length_take]
    omega
  rw [List.get?_append_right (by omega), hlt]
  have hqi : q - i = (q - i - 1) + 1 := by omega
  rw [hqi, List.get?_cons_succ, List.get?_drop]
  congr 1
  omega

theorem moverows_step_eq {α : Type} [DecidableEq α] (s : Sheet α)
    (oh : List (Option α)) (p : Nat) (h : Option α) (hmem : h ∉ oh) :
    addColsStep SyncType.moverows (s, oh) (p, h) =
      ((s.insertCols p).setCell1 p h, pyInsert oh (p - 1) h) := by
  unfold addColsStep
  rw [if_neg hmem]

theorem moverows_new_header_cell {α : Type} [DecidableEq α] {s : Sheet α}
    (hrect : s.Rect) {p : Nat} (hp : 1 ≤ p) (h : Option α) :
    ((s.insertCols p).setCell1 p h).header.get? (p - 1) = some h := by
  rcases le_or_lt p (s.width + 1) with hle | hgt
  · rw [moverows_insert_header hrect hp hle]
    exact pyInsert_get?_self s.header (by rw [Sheet.header_length]; omega) h
  · rw [Sheet.insertCols_of_gt (by omega)]
    rw [List.get?_eq_getElem?, Sheet.header_setCell1 hrect.1, List.getElem?_set,
      if_pos rfl, if_pos]
    rw [padNone_length, Sheet.header_length]
    omega

theorem moverows_data_blank {α : Type} [DecidableEq α] {s : Sheet α}
    (hrect : s.Rect) {p : Nat} (hp : 1 ≤ p) (h : Option α) :
    ∀ t ∈ ((s.insertCols p).setCell1 p h).rows.drop 1, t.get? (p - 1) = some none := by
  rcases le_or_lt p (s.width + 1) with hle | hgt
  · rw [moverows_insert_char hrect hp hle]
    intro t ht
    have hdrop : (Sheet.mk ((pyInsert s.header (p - 1) h) ::
        (s.rows.drop 1).map (fun t => t.take (p - 1) ++ none :: t.drop (p - 1)))).rows.drop 1 =
        (s.rows.drop 1).map (fun t => t.take (p - 1) ++ none :: t.drop (p - 1)) := rfl
    rw [hdrop] at ht
    obtain ⟨u, hu, rfl⟩ := List.mem_map.mp ht
    have hul : u.length = s.width := hrect.2 u (List.mem_of_mem_drop hu)
    exact pyInsert_get?_self u (by omega) none
  · rw [Sheet.insertCols_of_gt (by omega)]
    intro t ht
    rw [Sheet.drop_rows_setCell1 hrect.1] at ht
    obtain ⟨u, hu, rfl⟩ := List.mem_map.mp ht
    have hul : u.length = s.width := hrect.2 u (List.mem_of_mem_drop hu)
    rw [List.get?_eq_getElem?]
    exact padNone_getElem?_pad u (by omega) (by rw [Nat.max_eq_right (by omega)]; omega)

theorem forall₂_of_true {β : Type} {R : List (Option β) → List (Option β) → Prop}
    (hR : ∀ a b, R a b) :
    ∀ (l1 l2 : List (List (Option β))), l1.length = l2.length → List.Forall₂ R l1 l2 := by
  intro l1
  induction l1 with
  | nil =>
    intro l2 h
    cases l2 with
    | nil => exact List.Forall₂.nil
    | cons b t => simp at h
  | cons a t ih =>
    intro l2 h
    cases l2 with
    | nil => simp at h
    | cons b u =>
      refine List.Forall₂.cons (hR a b) (ih u ?_)
      simpa using h

theorem moverows_shift {α : Type} [DecidableEq α] {s : Sheet α}
    (hrect : s.Rect) {p : Nat} (hp : 1 ≤ p) (h : Option α) :
    List.Forall₂ (fun t t' => ∀ q, p ≤ q → q ≤ s.width → t'.get? q = t.get? (q - 1))
      s.rows ((s.insertCols p).setCell1 p h).rows := by
  rcases le_or_lt p (s.width + 1) with hle | hgt
  · rw [moverows_insert_char hrect hp hle]
    have hrows0 : s.rows = s.header :: s.rows.drop 1 := by
      obtain ⟨rows⟩ := s
      cases rows with
      | nil => exact absurd rfl hrect.1
      | cons r rs => rfl
    show List.Forall₂ _ s.rows ((pyInsert s.header (p - 1) h) ::
      (s.rows.drop 1).map (fun t => t.take (p - 1) ++ none :: t.drop (p - 1)))
    nth_rewrite 1 [hrows0]
    refine List.Forall₂.cons ?_ ?_
    · intro q hq hqw
      exact pyInsert_get?_gt s.header (by rw [Sheet.header_length]; omega) (by omega) h
    · rw [List.forall₂_map_right_iff]
      rw [List.forall₂_same]
      intro u hu
      intro q hq hqw
      have hul : u.length = s.width := hrect.2 u (List.mem_of_mem_drop hu)
      exact pyInsert_get?_gt u (by omega) (by omega) none
  · apply forall₂_of_true
    · intro a b q hq hqw
      omega
    · rw [Sheet.insertCols_of_gt (by omega), Sheet.rows_length_setCell1 hrect.1]

theorem rightmost_step_eq {α : Type} [DecidableEq α] (s : Sheet α)
    (oh : List (Option α)) (c : Nat) (h : Option α) (hmem : h ∉ oh) :
    addColsStep SyncType.rightmost (s, oh) (c, h) =
      (s.setCell1 (s.maxColumn + 1) h, oh ++ [h]) := by
  unfold addColsStep
  rw [if_neg hmem]

theorem rightmost_insert_char {α : Type} [DecidableEq α] {s : Sheet α}
    (hwf : s.WF) (h : Option α) :
    (s.setCell1 (s.maxColumn + 1) h).header = s.header ++ [h] ∧
    (s.setCell1 (s.maxColumn + 1) h).rows.drop 1 =
      (s.rows.drop 1).map (fun t => t ++ [none]) ∧
    (s.setCell1 (s.maxColumn + 1) h).width = s.width + 1 ∧
    (s.setCell1 (s.maxColumn + 1) h).header.get? s.maxColumn = some h := by
  obtain ⟨hrect, hw⟩ := hwf
  have hmx : s.maxColumn = s.width := Nat.max_eq_left hw
  rw [hmx]
  have hchar := Sheet.setCell1_append hrect h
  refine ⟨?_, ?_, ?_, ?_⟩
  · rw [hchar]
    rfl
  · rw [hchar]
    rfl
  · rw [Sheet.width_setCell1 hrect.1, Nat.max_eq_right (by omega)]
  · rw [hchar]
    show (s.header ++ [h]).get? s.width = some h
    rw [List.get?_append_right (by rw [Sheet.header_length])]
    rw [Sheet.header_length, Nat.sub_self]
    rfl

/-! ### The claims -/

/-- C1 counterexample: with old header `["A","B"]` and new header
`["A","A","B"]` (a duplicated name), `sync_type = "rightmost"` and
`allow_delete = false`, the name `"B"` occurs in the new header but is gone
from the old header after reconciliation (the rename pass overwrote it with
the duplicate `"A"`), so `set(new_header) ⊆ set(old_header_after)` fails. -/
theorem c1_counterexample :
    ¬ (∀ h ∈ (⟨[[some "A", some "A", some "B"]]⟩ : Sheet String).header1,
        h ∈ (syncSheet false SyncType.rightmost
          (⟨[[some "A", some "A", some "B"]]⟩ : Sheet String).header1
          (⟨[[some "A", some "B"]]⟩ : Sheet String)).header) := by
  decide

/-- C1 (amended): provided the new header row contains no duplicate name,
after reconciliation every name of the new header is present in the old
header at some position — for both `sync_type` values and both settings of
`allow_delete`. -/
theorem c1_new_names_present {α : Type} [DecidableEq α] (ad : Bool) (st : SyncType)
    (nt s : Sheet α) (hwf : s.WF) (hnd : nt.header1.Nodup) :
    ∀ h ∈ nt.header1, h ∈ (syncSheet ad st nt.header1 s).header := by
  obtain ⟨_, _, hmem, _⟩ :=
    syncSheet_nodup_char ad st nt.header1 hwf hnd (header1_ne_nil nt)
  exact hmem

/-- C1 witness: the amended theorem applied to old `["A","B"]`,
new `["A","C"]`, `moverows` with deletion. -/
theorem c1_witness :
    (Sheet.WF (⟨[[some "A", some "B"]]⟩ : Sheet String)) ∧
    (⟨[[some "A", some "C"]]⟩ : Sheet String).header1.Nodup ∧
    (some "C") ∈ (syncSheet true SyncType.moverows
      (⟨[[some "A", some "C"]]⟩ : Sheet String).header1
      (⟨[[some "A", some "B"]]⟩ : Sheet String)).header :=
  ⟨by decide, by decide,
    c1_new_names_present true SyncType.moverows
      (⟨[[some "A", some "C"]]⟩ : Sheet String)
      (⟨[[some "A", some "B"]]⟩ : Sheet String)
      (by decide) (by decide) (some "C") (by decide)⟩

/-- C2 counterexample: with `allow_delete = false`, old header `["B"]` and
new header `["X"]` under `sync_type = "rightmost"`, the old name `"B"` is no
longer present anywhere in the final header (`["X","X"]`): the rename pass
overwrote it, so `old_header_before ⊆ old_header_after` fails. -/
theorem c2_counterexample :
    (some "B") ∈ (⟨[[some "B"]]⟩ : Sheet String).header1 ∧
    (some "B") ∉ (syncSheet false SyncType.rightmost
      (⟨[[some "X"]]⟩ : Sheet String).header1
      (⟨[[some "B"]]⟩ : Sheet String)).header := by
  decide

/-- C2 (amended): with `allow_delete = false` no column is ever deleted:
the old sheet's column count never decreases and its row count is unchanged,
for both `sync_type` values — but old names can still disappear from the
header, because the positional rename pass overwrites header cells. -/
theorem c2_no_deletion {α : Type} [DecidableEq α] (st : SyncType)
    (nt s : Sheet α) (hwf : s.WF) :
    s.width ≤ (syncSheet false st nt.header1 s).width ∧
    (syncSheet false st nt.header1 s).rows.length = s.rows.length := by
  obtain ⟨hrect1, hw1, hlen1, _, hmono, hrows, _⟩ := phase1_spec_gen st nt.header1 hwf
  obtain ⟨h1, h2, h3, h4, h5⟩ := renameGo_char nt.header1 0 (phase1 st nt.header1 s).1
    (phase1 st nt.header1 s).2 hrect1 hlen1
  have h1' : (renameGo (phase1 st nt.header1 s).2 (pyEnum 1 nt.header1)
      (phase1 st nt.header1 s).1).rows.length = (phase1 st nt.header1 s).1.rows.length := h1
  have h3' : (renameGo (phase1 st nt.header1 s).2 (pyEnum 1 nt.header1)
      (phase1 st nt.header1 s).1).width = (phase1 st nt.header1 s).1.width := h3
  rw [syncSheet_false_eq]
  constructor
  · rw [h3']
    omega
  · rw [h1', hrows]

/-- C2 witness: the amended theorem applied to old `["B"]`, new `["X"]`,
`rightmost`. -/
theorem c2_witness :
    (Sheet.WF (⟨[[some "B"]]⟩ : Sheet String)) ∧
    ((⟨[[some "B"]]⟩ : Sheet String).width ≤
      (syncSheet false SyncType.rightmost (⟨[[some "X"]]⟩ : Sheet String).header1
        (⟨[[some "B"]]⟩ : Sheet String)).width ∧
      (syncSheet false SyncType.rightmost (⟨[[some "X"]]⟩ : Sheet String).header1
        (⟨[[some "B"]]⟩ : Sheet String)).rows.length =
        (⟨[[some "B"]]⟩ : Sheet String).rows.length) :=
  ⟨by decide,
    c2_no_deletion SyncType.rightmost (⟨[[some "X"]]⟩ : Sheet String)
      (⟨[[some "B"]]⟩ : Sheet String) (by decide)⟩

/-- C3 counterexample: for old header `["A","B","C"]` and new header
`["A","X","C"]` (with `allow_delete = false`), the code does NOT produce
`["A","X","C"]`: since `"X"` is absent from the old header it is first
added as a new column, so the result has four columns. -/
theorem c3_counterexample :
    (syncSheet false SyncType.rightmost
      (⟨[[some "A", some "X", some "C"]]⟩ : Sheet String).header1
      (⟨[[some "A", some "B", some "C"]]⟩ : Sheet String)).header ≠
      [some "A", some "X", some "C"] := by
  decide

/-- C3 (amended): on old header `["A","B","C"]` and new header
`["A","X","C"]` with `allow_delete = false`, the mismatch at position 2 is
not handled as a pure in-place rename: `"X"`, being absent from the old
header, is first added by the layout strategy, and the positional rename
pass then overwrites position 2; the final old header is
`["A","X","C","X"]` under `rightmost` and `["A","X","C","C"]` under
`moverows`. -/
theorem c3_rename_goes_through_insertion :
    (syncSheet false SyncType.rightmost
      (⟨[[some "A", some "X", some "C"]]⟩ : Sheet String).header1
      (⟨[[some "A", some "B", some "C"]]⟩ : Sheet String)).header =
      [some "A", some "X", some "C", some "X"] ∧
    (syncSheet false SyncType.moverows
      (⟨[[some "A", some "X", some "C"]]⟩ : Sheet String).header1
      (⟨[[some "A", some "B", some "C"]]⟩ : Sheet String)).header =
      [some "A", some "X", some "C", some "C"] := by
  decide

/-- C4: with `allow_delete = true`, after reconciliation every value left in
the old header occurs in the new header; in particular the final header
contains no name that was in the old header but absent from the new header
(`old_header_after ∩ (old_header_before - new_header) = ∅`), for both
`sync_type` values. -/
theorem c4_delete_removes_obsolete {α : Type} [DecidableEq α] (st : SyncType)
    (nt s : Sheet α) (hwf : s.WF) :
    (∀ v ∈ (syncSheet true st nt.header1 s).header, v ∈ nt.header1) ∧
    (∀ v ∈ (syncSheet true st nt.header1 s).header,
      ¬(v ∈ s.header1 ∧ v ∉ nt.header1)) := by
  have hval := syncSheet_true_values st nt.header1 hwf (header1_ne_nil nt)
  exact ⟨hval, fun v hv hcontra => hcontra.2 (hval v hv)⟩

/-- C4 witness: the theorem applied to old `["A","B","C"]` (with a data
row), new `["A","C"]`, `rightmost`. -/
theorem c4_witness :
    (Sheet.WF (⟨[[some "A", some "B", some "C"],
      [some "a1", some "b1", some "c1"]]⟩ : Sheet String)) ∧
    (some "A") ∈ (syncSheet true SyncType.rightmost
      (⟨[[some "A", some "C"]]⟩ : Sheet String).header1
      (⟨[[some "A", some "B", some "C"], [some "a1", some "b1", some "c1"]]⟩ :
        Sheet String)).header ∧
    (some "A") ∈ (⟨[[some "A", some "C"]]⟩ : Sheet String).header1 :=
  ⟨by decide, by decide,
    (c4_delete_removes_obsolete SyncType.rightmost
      (⟨[[some "A", some "C"]]⟩ : Sheet String)
      (⟨[[some "A", some "B", some "C"], [some "a1", some "b1", some "c1"]]⟩ :
        Sheet String) (by decide)).1 (some "A") (by decide)⟩

/-- C5: under the InsertShifting strategy (`sync_type = "moverows"`), a
missing column is handled by `insert_cols` at its 1-based index in the new
header followed by a header-cell write there; the new header cell holds the
new name, every data row has a blank cell at that position, and every cell
that was in a column at or right of that position is found one column
further right; in particular, for old `["A","C"]` (with one data row) and
new `["A","B","C"]`, the result is header `["A","B","C"]` with the data of
old column 2 now in column 3. -/
theorem c5_insert_shifting {α : Type} [DecidableEq α] :
    (∀ (s : Sheet α) (oh : List (Option α)) (p : Nat) (h : Option α),
      h ∉ oh → addColsStep SyncType.moverows (s, oh) (p, h) =
        ((s.insertCols p).setCell1 p h, pyInsert oh (p - 1) h)) ∧
    (∀ (s : Sheet α) (p : Nat) (h : Option α), s.Rect → 1 ≤ p →
      ((s.insertCols p).setCell1 p h).header.get? (p - 1) = some h ∧
      (∀ t ∈ ((s.insertCols p).setCell1 p h).rows.drop 1,
        t.get? (p - 1) = some none) ∧
      List.Forall₂ (fun t t' => ∀ q, p ≤ q → q ≤ s.width →
        t'.get? q = t.get? (q - 1)) s.rows ((s.insertCols p).setCell1 p h).rows) ∧
    (syncSheet false SyncType.moverows
      (⟨[[some "A", some "B", some "C"]]⟩ : Sheet String).header1
      (⟨[[some "A", some "C"], [some "a1", some "c1"]]⟩ : Sheet String)).rows =
      [[some "A", some "B", some "C"], [some "a1", none, some "c1"]] := by
  refine ⟨?_, ?_, by decide⟩
  · intro s oh p h hmem
    exact moverows_step_eq s oh p h hmem
  · intro s p h hrect hp
    exact ⟨moverows_new_header_cell hrect hp h, moverows_data_blank hrect hp h,
      moverows_shift hrect hp h⟩

/-- C5 witness: the general clauses applied to the sheet `[["A","C"],
["a1","c1"]]` at position 2. -/
theorem c5_witness :
    (Sheet.Rect (⟨[[some "A", some "C"], [some "a1", some "c1"]]⟩ : Sheet String)) ∧
    (((⟨[[some "A", some "C"], [some "a1", some "c1"]]⟩ : Sheet String).insertCols 2).setCell1
      2 (some "B")).header.get? 1 = some (some "B") :=
  ⟨by decide,
    ((@c5_insert_shifting String _).2.1
      (⟨[[some "A", some "C"], [some "a1", some "c1"]]⟩ : Sheet String)
      2 (some "B") (by decide) (by decide)).1⟩

/-- C6: under the Append strategy (`sync_type = "rightmost"`), a missing
column is written at `max_column + 1`: the header gains the new name at the
end, no existing column of any row moves, and the new column's data cells
are blank; in particular, for old `["A","B"]` (with one data row) and new
`["A","B","C"]`, the result is header `["A","B","C"]` with every cell of
the new column `"C"` blank. -/
theorem c6_append_rightmost {α : Type} [DecidableEq α] :
    (∀ (s : Sheet α) (oh : List (Option α)) (c : Nat) (h : Option α),
      h ∉ oh → addColsStep SyncType.rightmost (s, oh) (c, h) =
        (s.setCell1 (s.maxColumn + 1) h, oh ++ [h])) ∧
    (∀ (s : Sheet α) (h : Option α), s.WF →
      (s.setCell1 (s.maxColumn + 1) h).header.get? s.maxColumn = some h ∧
      (s.setCell1 (s.maxColumn + 1) h).header = s.header ++ [h] ∧
      (s.setCell1 (s.maxColumn + 1) h).rows.drop 1 =
        (s.rows.drop 1).map (fun t => t ++ [none]) ∧
      (s.setCell1 (s.maxColumn + 1) h).width = s.width + 1) ∧
    (syncSheet false SyncType.rightmost
      (⟨[[some "A", some "B", some "C"]]⟩ : Sheet String).header1
      (⟨[[some "A", some "B"], [some "a1", some "b1"]]⟩ : Sheet String)).rows =
      [[some "A", some "B", some "C"], [some "a1", some "b1", none]] := by
  refine ⟨?_, ?_, by decide⟩
  · intro s oh c h hmem
    exact rightmost_step_eq s oh c h hmem
  · intro s h hwf
    obtain ⟨hh, hd, hw, hc⟩ := rightmost_insert_char hwf h
    exact ⟨hc, hh, hd, hw⟩

/-- C6 witness: the general clauses applied to the sheet `[["A","B"],
["a1","b1"]]`. -/
theorem c6_witness :
    (Sheet.WF (⟨[[some "A", some "B"], [some "a1", some "b1"]]⟩ : Sheet String)) ∧
    ((⟨[[some "A", some "B"], [some "a1", some "b1"]]⟩ : Sheet String).setCell1
      ((⟨[[some "A", some "B"], [some "a1", some "b1"]]⟩ : Sheet String).maxColumn + 1)
      (some "C")).header =
      (⟨[[some "A", some "B"], [some "a1", some "b1"]]⟩ : Sheet String).header ++
        [some "C"] :=
  ⟨by decide,
    ((@c6_append_rightmost String _).2.1
      (⟨[[some "A", some "B"], [some "a1", some "b1"]]⟩ : Sheet String)
      (some "C") (by decide)).2.1⟩

/-- C7 counterexample: with old workbook `[("S", [["A","B"]])]` and new
workbook `[("S", [["A","A","B"]])]` (duplicate name in the new header),
`rightmost` and `allow_delete = false`, a second run of the reconciler
changes the result of the first run again ("B" is re-added after the first
run lost it), so the reconciler is not idempotent. -/
theorem c7_counterexample :
    syncWorkbook false SyncType.rightmost none
      [("S", (⟨[[some "A", some "A", some "B"]]⟩ : Sheet String))]
      (syncWorkbook false SyncType.rightmost none
        [("S", (⟨[[some "A", some "A", some "B"]]⟩ : Sheet String))]
        [("S", (⟨[[some "A", some "B"]]⟩ : Sheet String))]) ≠
      syncWorkbook false SyncType.rightmost none
        [("S", (⟨[[some "A", some "A", some "B"]]⟩ : Sheet String))]
        [("S", (⟨[[some "A", some "B"]]⟩ : Sheet String))] := by
  decide

/-- C7 (amended): running the reconciler twice in succession with the same
policy is idempotent, provided the new workbook's sheet names are unique,
every new header row is duplicate-free, and the old sheets are well-formed:
the old workbook after the second run equals the one after the first run. -/
theorem c7_reconcile_idempotent {α : Type} [DecidableEq α] (ad : Bool)
    (st : SyncType) (pat : Option (RegularExpression Char)) (nw ow : Workbook α)
    (hnn : (sheetNames nw).Nodup) (hnd : ∀ r ∈ nw, r.2.header1.Nodup)
    (hwf : ∀ q ∈ ow, q.2.WF) :
    syncWorkbook ad st pat nw (syncWorkbook ad st pat nw ow) =
      syncWorkbook ad st pat nw ow :=
  syncWorkbook_idem ad st pat nw ow hnn hnd hwf

/-- C7 witness: the amended theorem applied to a one-sheet pair with a
duplicate-free new header. -/
theorem c7_witness :
    (sheetNames [("S", (⟨[[some "A", some "C"]]⟩ : Sheet String))]).Nodup ∧
    (∀ r ∈ [("S", (⟨[[some "A", some "C"]]⟩ : Sheet String))], r.2.header1.Nodup) ∧
    (∀ q ∈ [("S", (⟨[[some "A", some "B"]]⟩ : Sheet String))], q.2.WF) ∧
    syncWorkbook true SyncType.rightmost none
      [("S", (⟨[[some "A", some "C"]]⟩ : Sheet String))]
      (syncWorkbook true SyncType.rightmost none
        [("S", (⟨[[some "A", some "C"]]⟩ : Sheet String))]
        [("S", (⟨[[some "A", some "B"]]⟩ : Sheet String))]) =
      syncWorkbook true SyncType.rightmost none
        [("S", (⟨[[some "A", some "C"]]⟩ : Sheet String))]
        [("S", (⟨[[some "A", some "B"]]⟩ : Sheet String))] :=
  ⟨by decide, by decide, by decide,
    c7_reconcile_idempotent true SyncType.rightmost none
      [("S", (⟨[[some "A", some "C"]]⟩ : Sheet String))]
      [("S", (⟨[[some "A", some "B"]]⟩ : Sheet String))]
      (by decide) (by decide) (by decide)⟩

theorem compareAndSyncColumns_valid {α : Type} [DecidableEq α]
    (ol nl : LoadResult α) (ad : Bool) {stp : String}
    (pat : Option (RegularExpression Char))
    (hv : stp = "rightmost" ∨ stp = "moverows") :
    compareAndSyncColumns ol nl ad stp pat =
      Except.ok
        (match ol, nl with
         | LoadResult.ok oldWb, LoadResult.ok newWb =>
             some (syncWorkbook ad
               (if stp = "rightmost" then SyncType.rightmost else SyncType.moverows)
               pat newWb oldWb)
         | _, _ => none) := by
  unfold compareAndSyncColumns
  rw [if_pos hv]

theorem compareAndSyncColumns_invalid {α : Type} [DecidableEq α]
    (ol nl : LoadResult α) (ad : Bool) {stp : String}
    (pat : Option (RegularExpression Char))
    (hv : ¬(stp = "rightmost" ∨ stp = "moverows")) :
    compareAndSyncColumns ol nl ad stp pat =
      Except.error "Invalid sync_type. Must be 'rightmost' or 'moverows'." := by
  unfold compareAndSyncColumns
  rw [if_neg hv]

/-- C8: `compare_and_sync_columns` raises exactly when `sync_type` is
neither `"rightmost"` nor `"moverows"`; the error is raised before any
workbook is opened (the result is the same fixed error whatever the load
outcomes are); with a valid `sync_type`, any load failure is caught and the
function returns normally, and in directory mode every pair is processed
independently, each result depending only on that pair's own loads. -/
theorem c8_error_handling {α : Type} [DecidableEq α] :
    (∀ (ol nl : LoadResult α) (ad : Bool) (stp : String)
      (pat : Option (RegularExpression Char)),
      (∃ e, compareAndSyncColumns ol nl ad stp pat = Except.error e) ↔
        ¬(stp = "rightmost" ∨ stp = "moverows")) ∧
    (∀ (ol nl : LoadResult α) (ad : Bool) (stp : String)
      (pat : Option (RegularExpression Char)),
      ¬(stp = "rightmost" ∨ stp = "moverows") →
      compareAndSyncColumns ol nl ad stp pat =
        Except.error "Invalid sync_type. Must be 'rightmost' or 'moverows'.") ∧
    (∀ (ol nl : LoadResult α) (ad : Bool) (stp : String)
      (pat : Option (RegularExpression Char)),
      (stp = "rightmost" ∨ stp = "moverows") →
      ((∀ wb, ol ≠ LoadResult.ok wb) ∨ (∀ wb, nl ≠ LoadResult.ok wb)) →
      compareAndSyncColumns ol nl ad stp pat = Except.ok none) ∧
    (∀ (pairs : List (LoadResult α × LoadResult α)) (ad : Bool) (stp : String)
      (pat : Option (RegularExpression Char)),
      (stp = "rightmost" ∨ stp = "moverows") →
      compareDirectoryFiles pairs ad stp pat =
        Except.ok (pairs.map (fun pr =>
          match compareAndSyncColumns pr.1 pr.2 ad stp pat with
          | Except.ok o => o
          | Except.error _ => none))) := by
  refine ⟨?_, ?_, ?_, ?_⟩
  · intro ol nl ad stp pat
    by_cases hv : stp = "rightmost" ∨ stp = "moverows"
    · apply iff_of_false
      · rintro ⟨e, he⟩
        rw [compareAndSyncColumns_valid ol nl ad pat hv] at he
        exact Except.noConfusion he
      · intro h
        exact h hv
    · apply iff_of_true
      · exact ⟨_, compareAndSyncColumns_invalid ol nl ad pat hv⟩
      · exact hv
  · intro ol nl ad stp pat hv
    exact compareAndSyncColumns_invalid ol nl ad pat hv
  · intro ol nl ad stp pat hv hfail
    rw [compareAndSyncColumns_valid ol nl ad pat hv]
    rcases hfail with hfail | hfail
    · cases ol with
      | ok wb => exact absurd rfl (hfail wb)
      | notFound => cases nl <;> rfl
      | failed m => cases nl <;> rfl
    · cases nl with
      | ok wb => exact absurd rfl (hfail wb)
      | notFound => cases ol <;> rfl
      | failed m => cases ol <;> rfl
  · intro pairs ad stp pat hv
    induction pairs with
    | nil => rfl
    | cons pr rest ih =>
      unfold compareDirectoryFiles at ih ⊢
      rw [List.mapM_cons]
      have hpr : compareAndSyncColumns pr.1 pr.2 ad stp pat =
          Except.ok (match compareAndSyncColumns pr.1 pr.2 ad stp pat with
            | Except.ok o => o
            | Except.error _ => none) := by
        rw [compareAndSyncColumns_valid pr.1 pr.2 ad pat hv]
      rw [hpr, ih]
      rfl

/-- C8 witness: the sync_type check fires for `"bogus"` whatever the loads
are, and a missing old file is caught with a normal return. -/
theorem c8_witness :
    (¬(("bogus" : String) = "rightmost" ∨ ("bogus" : String) = "moverows")) ∧
    compareAndSyncColumns (LoadResult.notFound : LoadResult String)
      LoadResult.notFound true "bogus" none =
      Except.error "Invalid sync_type. Must be 'rightmost' or 'moverows'." ∧
    compareAndSyncColumns (LoadResult.notFound : LoadResult String)
      (LoadResult.ok []) false "rightmost" none = Except.ok none :=
  ⟨by decide,
    (@c8_error_handling String _).2.1 LoadResult.notFound LoadResult.notFound
      true "bogus" none (by decide),
    (@c8_error_handling String _).2.2.1 LoadResult.notFound (LoadResult.ok [])
      false "rightmost" none (by decide)
      (Or.inl (fun wb h => LoadResult.noConfusion h))⟩

/-- C9: sheet-name filtering uses `re.match` semantics: a sheet is skipped
exactly when some prefix of its name belongs to the pattern's language
(start-anchored match — not full-match and not search-anywhere).  A sheet
named `"Temp_2024"` is skipped by pattern `"Temp"` but not by `"2024"`,
even though a search-anywhere would find `"2024"`, and a full-match with
`"Temp"` would fail.  A skipped sheet is left completely unchanged. -/
theorem c9_ignore_regex_start_anchored {α : Type} [DecidableEq α] :
    (∀ (pat : RegularExpression Char) (name : String),
      ignoreSheetB (some pat) name = true ↔
        ∃ t, t <+: name.data ∧ t ∈ pat.matches') ∧
    ignoreSheetB (some (litRe "Temp")) "Temp_2024" = true ∧
    ignoreSheetB (some (litRe "2024")) "Temp_2024" = false ∧
    pyReSearch (litRe "2024") "Temp_2024".data = true ∧
    (litRe "Temp").rmatch "Temp_2024".data = false ∧
    (∀ (ad : Bool) (st : SyncType) (pat : Option (RegularExpression Char))
      (nw ow : Workbook α) (q : String × Sheet α), q ∈ ow →
      ignoreSheetB pat q.1 = true → q ∈ syncWorkbook ad st pat nw ow) := by
  refine ⟨?_, by decide, by decide, by decide, by decide, ?_⟩
  · intro pat name
    exact pyReMatch_iff pat name.data
  · intro ad st pat nw ow q hq hig
    exact syncWorkbook_ignored_mem ad st pat nw ow hq hig

/-- C9 witness: the skipped sheet `"Temp_2024"` survives reconciliation
untouched. -/
theorem c9_witness :
    ("Temp_2024", (⟨[[some "A"]]⟩ : Sheet String)) ∈
      [("Temp_2024", (⟨[[some "A"]]⟩ : Sheet String))] ∧
    ignoreSheetB (some (litRe "Temp")) "Temp_2024" = true ∧
    ("Temp_2024", (⟨[[some "A"]]⟩ : Sheet String)) ∈
      syncWorkbook true SyncType.moverows (some (litRe "Temp"))
        [("Temp_2024", (⟨[[some "B"]]⟩ : Sheet String))]
        [("Temp_2024", (⟨[[some "A"]]⟩ : Sheet String))] :=
  ⟨by decide, by decide,
    (@c9_ignore_regex_start_anchored String _).2.2.2.2.2 true SyncType.moverows
      (some (litRe "Temp"))
      [("Temp_2024", (⟨[[some "B"]]⟩ : Sheet String))]
      [("Temp_2024", (⟨[[some "A"]]⟩ : Sheet String))]
      ("Temp_2024", (⟨[[some "A"]]⟩ : Sheet String)) (by decide) (by decide)⟩

/-- C10 counterexample: for old header `["A"]` and new header
`["A","A","Z","W","A","V"]` under `moverows` with `allow_delete = false`,
position 5 lies within the overlap of the final header (width 6) and the
new header (length 6), yet the final header cell there is blank while the
new header there is `"A"`: the rename pass does not overwrite the entire
overlapping prefix. -/
theorem c10_counterexample :
    5 ≤ (syncSheet false SyncType.moverows
      (⟨[[some "A", some "A", some "Z", some "W", some "A", some "V"]]⟩ :
        Sheet String).header1 (⟨[[some "A"]]⟩ : Sheet String)).width ∧
    5 ≤ (⟨[[some "A", some "A", some "Z", some "W", some "A", some "V"]]⟩ :
      Sheet String).header1.length ∧
    (syncSheet false SyncType.moverows
      (⟨[[some "A", some "A", some "Z", some "W", some "A", some "V"]]⟩ :
        Sheet String).header1 (⟨[[some "A"]]⟩ : Sheet String)).header.get? 4 ≠
      (⟨[[some "A", some "A", some "Z", some "W", some "A", some "V"]]⟩ :
        Sheet String).header1.get? 4 := by
  decide

/-- C10 (amended): the final rename pass overwrites the whole overlapping
header prefix with the new header's labels provided the tracked header list
cannot desynchronize from the sheet: when `sync_type = "rightmost"`, or
`allow_delete = true`, or the new header row has no duplicates, every final
header position within the overlap holds the new header's label; and the
rename pass itself never touches data rows. -/
theorem c10_overlap_overwrite {α : Type} [DecidableEq α] (ad : Bool) (st : SyncType)
    (nt s : Sheet α) (hwf : s.WF)
    (hcase : st = SyncType.rightmost ∨ ad = true ∨ nt.header1.Nodup) :
    (∀ i, i < (syncSheet ad st nt.header1 s).width → i < nt.header1.length →
      (syncSheet ad st nt.header1 s).header.get? i = nt.header1.get? i) ∧
    (∀ (oh newHeaders : List (Option α)) (t : Sheet α), t.Rect →
      oh.length ≤ t.width →
      (renameGo oh (pyEnum 1 newHeaders) t).rows.drop 1 = t.rows.drop 1) := by
  constructor
  · cases ad with
    | true =>
      obtain ⟨hrect1, hw1, hlen1, _, _, _, hmem1⟩ := phase1_spec_gen st nt.header1 hwf
      obtain ⟨hwpos, hhead, hwidth, _, _⟩ :=
        syncSheet_true_char st nt.header1 hrect1 hlen1 hmem1 (header1_ne_nil nt)
      intro i hiw hin
      rw [hwidth] at hiw
      rw [hhead, List.get?_append (by rw [List.length_take]; omega),
        List.get?_take hiw]
    | false =>
      have hstnd : st = SyncType.moverows → nt.header1.Nodup := by
        intro hst
        rcases hcase with hc | hc | hc
        · rw [hst] at hc
          exact SyncType.noConfusion hc
        · exact absurd hc (by simp)
        · exact hc
      obtain ⟨hrect1, hw1, hsync1, _, _, _, hmem1⟩ :=
        phase1_spec st nt.header1 hwf hstnd
      obtain ⟨hhead, hwidth, _, _⟩ := syncSheet_false_char st nt.header1 hrect1 hsync1
      intro i hiw hin
      rw [hwidth] at hiw
      rw [hhead, List.get?_append (by rw [List.length_take]; omega),
        List.get?_take hiw]
  · intro oh newHeaders t hrect hlen
    have h := (renameGo_char newHeaders 0 t oh hrect hlen).2.1
    have h' : (renameGo oh (pyEnum 1 newHeaders) t).rows.drop 1 = t.rows.drop 1 := h
    exact h'

/-- C10 witness: the amended theorem applied to old `["A"]` and new
`["A","A","Z","W","A","V"]` with `allow_delete = true` (position 5 now does
hold the new label). -/
theorem c10_witness :
    (Sheet.WF (⟨[[some "A"]]⟩ : Sheet String)) ∧
    (syncSheet true SyncType.moverows
      (⟨[[some "A", some "A", some "Z", some "W", some "A", some "V"]]⟩ :
        Sheet String).header1 (⟨[[some "A"]]⟩ : Sheet String)).header.get? 4 =
      (⟨[[some "A", some "A", some "Z", some "W", some "A", some "V"]]⟩ :
        Sheet String).header1.get? 4 :=
  ⟨by decide,
    (c10_overlap_overwrite true SyncType.moverows
      (⟨[[some "A", some "A", some "Z", some "W", some "A", some "V"]]⟩ : Sheet String)
      (⟨[[some "A"]]⟩ : Sheet String) (by decide) (Or.inr (Or.inl rfl))).1 4
      (by decide) (by decide)⟩
